import Mathlib

/-!
Ray marcher (`rayMarcher.cpp`): signed distance fields and sphere tracing.

A shallow embedding of `maths-accelerator/rayMarcher/C/rayMarcher.cpp` over the real
numbers: the `float` fields of the source become `ℝ`, a `float` literal becomes the exact
value of the binary32 number it denotes, `sqrt` becomes `Real.sqrt`,
`fabs` becomes `|·|`, `std::max`/`std::min` become `max`/`min`, and the loops become
structural recursions on the number of iterations that are left.

The first part of the file holds the definitions, in the order of the source; the second
part holds the lemmas and theorems about them.
-/

noncomputable section

/-! ## Constants -/

/-- The macro `MAX_STEPS`, 100. -/
def MAX_STEPS : Nat := 100

/-- The macro `MAX_DIST`, `100.0f`. -/
def MAX_DIST : ℝ := 100

/-- The macro `SURFACE_DIST`, `0.01f`: the binary32 number `5368709 / 2^29`, which is
`0.00999999977648…`. -/
def SURFACE_DIST : ℝ := 5368709 / 536870912

/-- The constant `PI = 3.14159265f`: the binary32 number `13176795 / 2^22`, which is
`3.14159274101257…`, not the number π. -/
def PI : ℝ := 13176795 / 4194304

/-! ## Vectors -/

/-- The type `vec3`: three components. -/
structure vec3 where
  x : ℝ
  y : ℝ
  z : ℝ

/-- The type `vec2`: two components. -/
structure vec2 where
  x : ℝ
  y : ℝ

/-- Method `vec2::xyy`. -/
def vec2.xyy (v : vec2) : vec3 := ⟨v.x, v.y, v.y⟩

/-- Method `vec2::yxy`. -/
def vec2.yxy (v : vec2) : vec3 := ⟨v.y, v.x, v.y⟩

/-- Method `vec2::yyx`. -/
def vec2.yyx (v : vec2) : vec3 := ⟨v.y, v.y, v.x⟩

/-- Method `vec3::addition`. -/
def vec3.addition (v other : vec3) : vec3 := ⟨v.x + other.x, v.y + other.y, v.z + other.z⟩

/-- Method `vec3::subtraction`. -/
def vec3.subtraction (v other : vec3) : vec3 := ⟨v.x - other.x, v.y - other.y, v.z - other.z⟩

/-- Method `vec3::scalarMul`. -/
def vec3.scalarMul (v : vec3) (mul : ℝ) : vec3 := ⟨v.x * mul, v.y * mul, v.z * mul⟩

/-- Method `vec3::length`. -/
def vec3.length (v : vec3) : ℝ := Real.sqrt (v.x * v.x + v.y * v.y + v.z * v.z)

/-- Method `vec2::length`. -/
def vec2.length (v : vec2) : ℝ := Real.sqrt (v.x * v.x + v.y * v.y)

/-- Method `vec3::normalise` (division by a zero length is Lean's `x / 0 = 0`; the source
yields NaN there). -/
def vec3.normalise (v : vec3) : vec3 :=
  let len := v.length
  ⟨v.x / len, v.y / len, v.z / len⟩

/-- Method `vec3::abs`. -/
def vec3.abs (v : vec3) : vec3 := ⟨|v.x|, |v.y|, |v.z|⟩

/-- Method `vec2::abs`. -/
def vec2.abs (v : vec2) : vec2 := ⟨|v.x|, |v.y|⟩

/-- Function `dot`. -/
def dot (v1 v2 : vec3) : ℝ := v1.x * v2.x + v1.y * v2.y + v1.z * v2.z

/-! ## Primitive distance fields -/

/-- Function `sdfSphere`. -/
def sdfSphere (p : vec3) (s : ℝ) : ℝ := p.length - s

/-- Function `sdfTorus`: `t.x` is the major radius and `t.y` the minor radius. The angle is the
product of the constant `PI` and `0.5f`. -/
def sdfTorus (p : vec3) (t : vec2) : ℝ :=
  let angle := PI * 0.5
  let cosA := Real.cos angle
  let sinA := Real.sin angle
  let y := p.y * cosA - p.z * sinA
  let z := p.y * sinA + p.z * cosA
  let p : vec3 := ⟨p.x, y, z⟩
  let pXZ : vec2 := ⟨p.x, p.z⟩
  let q : vec2 := ⟨pXZ.length - t.x, p.y⟩
  q.length - t.y

/-- Function `sdfRoundedCube`. -/
def sdfRoundedCube (p b : vec3) (e : ℝ) : ℝ :=
  let p := p.abs
  let q := p.subtraction b
  let d : vec3 := ⟨max q.x 0, max q.y 0, max q.z 0⟩
  let outsideDist := d.length
  let insideDist := min (max q.x (max q.y q.z)) 0
  let distance := outsideDist + insideDist
  distance - e

/-- Function `sdfBoxFrame`. -/
def sdfBoxFrame (p b : vec3) (e : ℝ) : ℝ :=
  let p := p.abs.subtraction b
  let q := ((p.addition ⟨e, e, e⟩).abs).subtraction ⟨e, e, e⟩
  let d1 := (vec3.mk (max p.x 0) (max q.y 0) (max q.z 0)).length +
            min (max p.x (max q.y q.z)) 0
  let d2 := (vec3.mk (max q.x 0) (max p.y 0) (max q.z 0)).length +
            min (max q.x (max p.y q.z)) 0
  let d3 := (vec3.mk (max q.x 0) (max q.y 0) (max p.z 0)).length +
            min (max q.x (max q.y p.z)) 0
  min (min d1 d2) d3

/-- The distance of the point `(x, y, z)` to the octant of the points with no positive
coordinate: the length of the positive part plus the (non-positive) largest coordinate
capped at zero. It is the expression that `sdfRoundedCube` evaluates at `q` and that
`sdfBoxFrame` evaluates three times. -/
def boxDist (x y z : ℝ) : ℝ :=
  (vec3.mk (max x 0) (max y 0) (max z 0)).length + min (max x (max y z)) 0

/-- The function `atan2(y, x)` of the C library over the reals: the argument of `x + y·i`, in
`(-π, π]`, and `0` at `x = y = 0`. -/
def atan2 (y x : ℝ) : ℝ := Complex.arg ⟨x, y⟩

/-- The body of the `for` loop of `sdfMandelbulb`, run for at most `n` more iterations
from the state `(p, dr, r)`; `pos` is the query point. The result is the pair `(r, dr)`
with which the loop is left, by `break` or when the iterations are used up. -/
def mandelbulbLoop (pos : vec3) (power : ℝ) : Nat → vec3 → ℝ → ℝ → ℝ × ℝ
  | 0, _, dr, r => (r, dr)
  | n + 1, p, dr, _ =>
    let r := p.length
    if r > 2 then (r, dr)
    else
      -- Convert to polar coordinates
      let theta := Real.arccos (p.z / r)
      let phi := atan2 p.y p.x
      let dr := Real.rpow r (power - 1) * power * dr + 1
      -- Scale and rotate the point
      let zr := Real.rpow r power
      let theta := theta * power
      let phi := phi * power
      -- Convert back to cartesian coordinates
      let p := ((vec3.mk (Real.sin theta * Real.cos phi) (Real.sin theta * Real.sin phi)
        (Real.cos theta)).scalarMul zr).addition pos
      mandelbulbLoop pos power n p dr r

/-- Function `sdfMandelbulb`: `Iterations = 5`, `dr = 1`, `r = 0` at the start. -/
def sdfMandelbulb (p : vec3) (power : ℝ) : ℝ :=
  let res := mandelbulbLoop p power 5 p 1 0
  0.5 * Real.log res.1 * res.1 / res.2

/-! ## Scene -/

/-- Function `scene`: the live alternative, a box frame with half-extents `(1, 1, 1)` and bar
thickness `0.1f`, the binary32 number `13421773 / 2^27 = 0.100000001490116…`. -/
def scene (p : vec3) : ℝ :=
  let boxFrameDimensions : vec3 := ⟨1, 1, 1⟩
  let barThickness : ℝ := 13421773 / 134217728
  sdfBoxFrame p boxFrameDimensions barThickness

/-- The first alternative of `scene`, commented out in the source:
`return sdfSphere(p, 1.0f);` -/
def sceneSphere (p : vec3) : ℝ := sdfSphere p 1

/-! ## Ray marching -/

/-- The `for` loop of `raymarch` over the distance field `field`, with `n` iterations
left and the local `rayDist`. The result is the value of `rayDist` when the loop is left,
paired with the list of the values of `rayDist` at which the field was sampled, one per
iteration that was run, in order. -/
def raymarchRun (field : vec3 → ℝ) (ro rd : vec3) : Nat → ℝ → ℝ × List ℝ
  | 0, rayDist => (rayDist, [])
  | n + 1, rayDist =>
    let p := ro.addition (rd.scalarMul rayDist)
    let dS := field p
    let rayDist' := rayDist + dS
    if rayDist' > MAX_DIST ∨ dS < SURFACE_DIST then (rayDist', [rayDist])
    else
      let rest := raymarchRun field ro rd n rayDist'
      (rest.1, rayDist :: rest.2)

/-- Function `raymarch`, with the distance field as a parameter. -/
def raymarchWith (field : vec3 → ℝ) (ro rd : vec3) : ℝ :=
  (raymarchRun field ro rd MAX_STEPS 0).1

/-- The values of `rayDist` at which `raymarch` samples the field, one per iteration. -/
def raymarchSamples (field : vec3 → ℝ) (ro rd : vec3) : List ℝ :=
  (raymarchRun field ro rd MAX_STEPS 0).2

/-- Function `raymarch`. -/
def raymarch (ro rd : vec3) : ℝ := raymarchWith scene ro rd

/-! ## Surface normal -/

/-- Function `getSurfaceNormal`, with the distance field as a parameter: the tetrahedral
technique. The step `eps = 0.0001f` is the binary32 number `13743895 / 2^37`, which is
`0.0000999999974737…`. -/
def getSurfaceNormalWith (field : vec3 → ℝ) (p : vec3) : vec3 :=
  let eps : ℝ := 13743895 / 137438953472
  let h1 : vec3 := ⟨1, -1, -1⟩
  let h2 : vec3 := ⟨-1, -1, 1⟩
  let h3 : vec3 := ⟨-1, 1, -1⟩
  let h4 : vec3 := ⟨1, 1, 1⟩
  let a := h1.scalarMul (field (p.addition (h1.scalarMul eps)))
  let b := h2.scalarMul (field (p.addition (h2.scalarMul eps)))
  let c := h3.scalarMul (field (p.addition (h3.scalarMul eps)))
  let d := h4.scalarMul (field (p.addition (h4.scalarMul eps)))
  let normalVector := ((a.addition b).addition c).addition d
  normalVector.normalise

/-- Function `getSurfaceNormal`. -/
def getSurfaceNormal (p : vec3) : vec3 := getSurfaceNormalWith scene p

end

/-! ## Binary floating point

The source computes in `float` (IEEE 754 binary32) and, inside `sdfMandelbulb`, partly in
`double` (binary64). The definitions below are that arithmetic: round to nearest, ties to
even, with signed zeros, gradual underflow, overflow to infinity and NaN. Each operation of
the source is rounded on its own (no fused multiply-add). -/

/-- Auxiliary to `bitLen`: halve `n` until it is zero, at most `fuel` times. -/
def bitLenAux : Nat → Nat → Nat
  | 0, _ => 0
  | fuel + 1, n => if n = 0 then 0 else bitLenAux fuel (n / 2) + 1

/-- The number of binary digits of `n`: the least `b` with `n < 2^b`. -/
def bitLen (n : Nat) : Nat := bitLenAux n n

/-- Auxiliary to `isqrt`: decide the binary digits of the root below `2^i`, from the top,
given those above in `r`. -/
def isqrtAux (n : Nat) : Nat → Nat → Nat
  | 0, r => r
  | i + 1, r =>
    if (r + 2 ^ i) * (r + 2 ^ i) ≤ n then isqrtAux n i (r + 2 ^ i) else isqrtAux n i r

/-- The integer square root of `n`: the largest `r` with `r * r ≤ n`. -/
def isqrt (n : Nat) : Nat := isqrtAux n (bitLen n) 0

/-- A floating-point datum of either format. A finite datum `fin neg k` is the number
`± k * 2^(-1074)`: the unit is the smallest positive binary64 number, of which every finite
binary32 and binary64 number is a multiple. `fin true 0` is the negative zero. -/
inductive Fl where
  | fin (neg : Bool) (k : Nat)
  | inf (neg : Bool)
  | nan
  deriving DecidableEq

/-- A format: the precision in bits, the exponent `grid` of its smallest positive number
in the unit `2^(-1074)`, and the exponent `top` of the first power of two that has
overflowed, in the same unit. -/
structure Fmt where
  prec : Nat
  grid : Nat
  top : Nat

/-- The format of `float`: 24 bits, smallest number `2^(-149)`, overflow at `2^128`. -/
def binary32 : Fmt := ⟨24, 925, 1202⟩

/-- The format of `double`: 53 bits, smallest number `2^(-1074)`, overflow at `2^1024`. -/
def binary64 : Fmt := ⟨53, 0, 2098⟩

/-- Rounding to nearest, ties to even: the datum of the format `f` nearest to the number
`± num * 2^(-1074 - scale)`. The lowest `drop` bits of `num` are rounded away: those beyond
the precision and those below the grid of the format. -/
def roundTo (f : Fmt) (neg : Bool) (num scale : Nat) : Fl :=
  let drop := max (bitLen num - f.prec) (scale + f.grid)
  let q := num / 2 ^ drop
  let rem := num % 2 ^ drop
  let half := 2 ^ (drop - 1)
  let up : Bool := decide (drop ≠ 0 ∧ (half < rem ∨ (rem = half ∧ q % 2 = 1)))
  let k := (if up then q + 1 else q) * 2 ^ (drop - scale)
  if 2 ^ f.top ≤ k then Fl.inf neg else Fl.fin neg k

/-- The number `± m * 2^e` as a datum, for `e ≥ -1074` (no rounding). -/
def Fl.dyadic (neg : Bool) (m : Nat) (e : Int) : Fl := .fin neg (m * 2 ^ (e + 1074).toNat)

/-- The positive zero. -/
def Fl.zero : Fl := .fin false 0

/-- The number one. -/
def Fl.one : Fl := Fl.dyadic false 1 0

/-- The number two. -/
def Fl.two : Fl := Fl.dyadic false 2 0

/-- A decimal literal `num / den` of the source, rounded to the format `f`; the quotient
is computed to 1200 bits below the unit, with a sticky bit. -/
def Fl.lit (f : Fmt) (num den : Nat) : Fl :=
  let n := num * 2 ^ (1074 + 1200)
  roundTo f false (2 * (n / den) + (if n % den = 0 then 0 else 1)) 1201

/-- Negation. -/
def Fl.neg : Fl → Fl
  | .fin s k => .fin (!s) k
  | .inf s => .inf (!s)
  | .nan => .nan

/-- The function `fabs`. -/
def Fl.abs : Fl → Fl
  | .fin _ k => .fin false k
  | .inf _ => .inf false
  | .nan => .nan

/-- Addition in the format `f`. -/
def Fl.add (f : Fmt) : Fl → Fl → Fl
  | .nan, _ => .nan
  | _, .nan => .nan
  | .inf a, .inf b => if a = b then .inf a else .nan
  | .inf a, .fin _ _ => .inf a
  | .fin _ _, .inf b => .inf b
  | .fin s1 k1, .fin s2 k2 =>
    if s1 = s2 then roundTo f s1 (k1 + k2) 0
    else if k1 = k2 then .fin false 0
    else if k2 < k1 then roundTo f s1 (k1 - k2) 0
    else roundTo f s2 (k2 - k1) 0

/-- Subtraction in the format `f`. -/
def Fl.sub (f : Fmt) (a b : Fl) : Fl := Fl.add f a b.neg

/-- Multiplication in the format `f`. -/
def Fl.mul (f : Fmt) : Fl → Fl → Fl
  | .nan, _ => .nan
  | _, .nan => .nan
  | .inf a, .inf b => .inf (xor a b)
  | .inf a, .fin s k => if k = 0 then .nan else .inf (xor a s)
  | .fin s k, .inf b => if k = 0 then .nan else .inf (xor s b)
  | .fin s1 k1, .fin s2 k2 => roundTo f (xor s1 s2) (k1 * k2) 1074

/-- Division in the format `f`; the quotient is computed to 1200 bits below the unit, with
a sticky bit. -/
def Fl.div (f : Fmt) : Fl → Fl → Fl
  | .nan, _ => .nan
  | _, .nan => .nan
  | .inf _, .inf _ => .nan
  | .inf a, .fin s _ => .inf (xor a s)
  | .fin s _, .inf b => .fin (xor s b) 0
  | .fin s1 k1, .fin s2 k2 =>
    if k2 = 0 then (if k1 = 0 then .nan else .inf (xor s1 s2))
    else
      let n := k1 * 2 ^ (1074 + 1200)
      roundTo f (xor s1 s2) (2 * (n / k2) + (if n % k2 = 0 then 0 else 1)) 1201

/-- Square root in the format `f`; the root is computed to 64 bits below the unit, with a
sticky bit. -/
def Fl.sqrt (f : Fmt) : Fl → Fl
  | .nan => .nan
  | .inf s => if s then .nan else .inf false
  | .fin s k =>
    if k = 0 then .fin s 0
    else if s then .nan
    else
      let n := k * 2 ^ (1074 + 2 * 64)
      let r := isqrt n
      roundTo f false (2 * r + (if r * r = n then 0 else 1)) 65

/-- The comparison `a < b`; false when an operand is a NaN, and the two zeros are equal. -/
def Fl.lt : Fl → Fl → Bool
  | .nan, _ => false
  | _, .nan => false
  | .inf a, .inf b => a && !b
  | .inf a, .fin _ _ => a
  | .fin _ _, .inf b => !b
  | .fin s1 k1, .fin s2 k2 =>
    match s1, s2 with
    | false, false => decide (k1 < k2)
    | false, true => false
    | true, false => decide (0 < k1 ∨ 0 < k2)
    | true, true => decide (k2 < k1)

/-- The function `std::max (a, b)`, which is `(a < b) ? b : a`. -/
def Fl.max (a b : Fl) : Fl := if Fl.lt a b then b else a

/-- The function `std::min (a, b)`, which is `(b < a) ? b : a`. -/
def Fl.min (a b : Fl) : Fl := if Fl.lt b a then b else a

/-- The conversion of a `double` to `float`. The conversion of a `float` to `double`
changes nothing. -/
def Fl.toFloat : Fl → Fl
  | .fin s k => roundTo binary32 s k 0
  | x => x

/-- The functions of the C mathematical library that the source calls and whose results
the standard does not fix bit by bit: they are parameters of the model. `F` marks the
`float` overload and `D` the `double` one. -/
structure Libm where
  acosF : Fl → Fl
  atan2F : Fl → Fl → Fl
  sinF : Fl → Fl
  cosF : Fl → Fl
  logF : Fl → Fl
  powF : Fl → Fl → Fl
  powD : Fl → Fl → Fl

/-! ## The program in binary32 -/

/-- The macro `MAX_DIST`, `100.0f`. -/
def MAX_DIST_F : Fl := Fl.lit binary32 100 1

/-- The macro `SURFACE_DIST`, `0.01f`. -/
def SURFACE_DIST_F : Fl := Fl.lit binary32 1 100

/-- The type `vec3` with `float` components. -/
structure vec3F where
  x : Fl
  y : Fl
  z : Fl
  deriving DecidableEq

/-- Method `vec3::addition` in `float`. -/
def vec3F.addition (v other : vec3F) : vec3F :=
  ⟨Fl.add binary32 v.x other.x, Fl.add binary32 v.y other.y, Fl.add binary32 v.z other.z⟩

/-- Method `vec3::subtraction` in `float`. -/
def vec3F.subtraction (v other : vec3F) : vec3F :=
  ⟨Fl.sub binary32 v.x other.x, Fl.sub binary32 v.y other.y, Fl.sub binary32 v.z other.z⟩

/-- Method `vec3::scalarMul` in `float`. -/
def vec3F.scalarMul (v : vec3F) (mul : Fl) : vec3F :=
  ⟨Fl.mul binary32 v.x mul, Fl.mul binary32 v.y mul, Fl.mul binary32 v.z mul⟩

/-- Method `vec3::length` in `float`: `sqrt (x*x + y*y + z*z)`, summed from the left. -/
def vec3F.length (v : vec3F) : Fl :=
  Fl.sqrt binary32 (Fl.add binary32 (Fl.add binary32 (Fl.mul binary32 v.x v.x)
    (Fl.mul binary32 v.y v.y)) (Fl.mul binary32 v.z v.z))

/-- Method `vec3::normalise` in `float`. -/
def vec3F.normalise (v : vec3F) : vec3F :=
  let len := v.length
  ⟨Fl.div binary32 v.x len, Fl.div binary32 v.y len, Fl.div binary32 v.z len⟩

/-- Method `vec3::abs` in `float`. -/
def vec3F.abs (v : vec3F) : vec3F := ⟨v.x.abs, v.y.abs, v.z.abs⟩

/-- Function `sdfSphere` in `float`. -/
def sdfSphereF (p : vec3F) (s : Fl) : Fl := Fl.sub binary32 p.length s

/-- Function `sdfRoundedCube` in `float`. -/
def sdfRoundedCubeF (p b : vec3F) (e : Fl) : Fl :=
  let p := p.abs
  let q := p.subtraction b
  let d : vec3F := ⟨Fl.max q.x Fl.zero, Fl.max q.y Fl.zero, Fl.max q.z Fl.zero⟩
  let outsideDist := d.length
  let insideDist := Fl.min (Fl.max q.x (Fl.max q.y q.z)) Fl.zero
  let distance := Fl.add binary32 outsideDist insideDist
  Fl.sub binary32 distance e

/-- Function `sdfBoxFrame` in `float`. -/
def sdfBoxFrameF (p b : vec3F) (e : Fl) : Fl :=
  let p := p.abs.subtraction b
  let q := ((p.addition ⟨e, e, e⟩).abs).subtraction ⟨e, e, e⟩
  let d1 := Fl.add binary32
    (vec3F.mk (Fl.max p.x Fl.zero) (Fl.max q.y Fl.zero) (Fl.max q.z Fl.zero)).length
    (Fl.min (Fl.max p.x (Fl.max q.y q.z)) Fl.zero)
  let d2 := Fl.add binary32
    (vec3F.mk (Fl.max q.x Fl.zero) (Fl.max p.y Fl.zero) (Fl.max q.z Fl.zero)).length
    (Fl.min (Fl.max q.x (Fl.max p.y q.z)) Fl.zero)
  let d3 := Fl.add binary32
    (vec3F.mk (Fl.max q.x Fl.zero) (Fl.max q.y Fl.zero) (Fl.max p.z Fl.zero)).length
    (Fl.min (Fl.max q.x (Fl.max q.y p.z)) Fl.zero)
  Fl.min (Fl.min d1 d2) d3

/-- The `for` loop of `sdfMandelbulb` in the arithmetic of the source, with `n` iterations
left: `r > 2.0`, the update of `dr` and the final estimate are computed in `double`, the
rest in `float`. The result is the pair `(r, dr)`. -/
def mandelbulbLoopF (m : Libm) (pos : vec3F) (power : Fl) : Nat → vec3F → Fl → Fl → Fl × Fl
  | 0, _, dr, r => (r, dr)
  | n + 1, p, dr, _ =>
    let r := p.length
    if Fl.lt Fl.two r then (r, dr)
    else
      let theta := m.acosF (Fl.div binary32 p.z r)
      let phi := m.atan2F p.y p.x
      let dr := Fl.toFloat (Fl.add binary64 (Fl.mul binary64 (Fl.mul binary64
        (m.powD r (Fl.sub binary64 power Fl.one)) power) dr) Fl.one)
      let zr := m.powF r power
      let theta := Fl.mul binary32 theta power
      let phi := Fl.mul binary32 phi power
      let p := ((vec3F.mk (Fl.mul binary32 (m.sinF theta) (m.cosF phi))
        (Fl.mul binary32 (m.sinF theta) (m.sinF phi)) (m.cosF theta)).scalarMul zr).addition pos
      mandelbulbLoopF m pos power n p dr r

/-- Function `sdfMandelbulb` in the arithmetic of the source: the estimate
`0.5 * log(r) * r / dr` is a `double` expression of the `float` value `log(r)`, converted
to `float` on return. -/
def sdfMandelbulbF (m : Libm) (p : vec3F) (power : Fl) : Fl :=
  let res := mandelbulbLoopF m p power 5 p Fl.one Fl.zero
  Fl.toFloat (Fl.div binary64 (Fl.mul binary64 (Fl.mul binary64 (Fl.lit binary64 1 2)
    (m.logF res.1)) res.1) res.2)

/-- Function `scene` in `float`: the box frame with half-extents `(1, 1, 1)` and bar
thickness `0.1f`. -/
def sceneF (p : vec3F) : Fl :=
  let boxFrameDimensions : vec3F := ⟨Fl.one, Fl.one, Fl.one⟩
  let barThickness : Fl := Fl.lit binary32 1 10
  sdfBoxFrameF p boxFrameDimensions barThickness

/-- The first alternative of `scene` in `float`: `sdfSphere(p, 1.0f)`. -/
def sceneSphereF (p : vec3F) : Fl := sdfSphereF p Fl.one

/-- The `for` loop of `raymarch` in `float`, as `raymarchRun`. -/
def raymarchRunF (field : vec3F → Fl) (ro rd : vec3F) : Nat → Fl → Fl × List Fl
  | 0, rayDist => (rayDist, [])
  | n + 1, rayDist =>
    let p := ro.addition (rd.scalarMul rayDist)
    let dS := field p
    let rayDist' := Fl.add binary32 rayDist dS
    if Fl.lt MAX_DIST_F rayDist' || Fl.lt dS SURFACE_DIST_F then (rayDist', [rayDist])
    else
      let rest := raymarchRunF field ro rd n rayDist'
      (rest.1, rayDist :: rest.2)

/-- The real number that a finite datum denotes; `0` for the infinities and the NaN. -/
noncomputable def Fl.toReal : Fl → ℝ
  | .fin s k => (if s then -1 else 1) * (k : ℝ) / 2 ^ 1074
  | _ => 0

/-- The point of real coordinates that a `float` vector with finite components denotes. -/
noncomputable def vec3F.toReal (v : vec3F) : vec3 := ⟨v.x.toReal, v.y.toReal, v.z.toReal⟩

/-! ## Binary floating point: the integer routines -/

theorem lt_two_pow_bitLenAux : ∀ (fuel n : Nat), n ≤ fuel → n < 2 ^ bitLenAux fuel n := by
  intro fuel
  induction fuel with
  | zero =>
    intro n hn
    have : n = 0 := by omega
    subst this
    simp [bitLenAux]
  | succ fuel ih =>
    intro n hn
    unfold bitLenAux
    split_ifs with h0
    · subst h0
      simp
    · have h1 := ih (n / 2) (by omega)
      rw [pow_succ]
      omega

/-- The number `n` has at most `bitLen n` binary digits. -/
theorem lt_two_pow_bitLen (n : Nat) : n < 2 ^ bitLen n :=
  lt_two_pow_bitLenAux n n le_rfl

theorem isqrtAux_spec (n : Nat) : ∀ (i r : Nat), r * r ≤ n → n < (r + 2 ^ i) * (r + 2 ^ i) →
    isqrtAux n i r * isqrtAux n i r ≤ n ∧ n < (isqrtAux n i r + 1) * (isqrtAux n i r + 1) := by
  intro i
  induction i with
  | zero =>
    intro r h1 h2
    simpa [isqrtAux] using And.intro h1 h2
  | succ i ih =>
    intro r h1 h2
    unfold isqrtAux
    split_ifs with hc
    · apply ih _ hc
      have e : r + 2 ^ i + 2 ^ i = r + 2 ^ (i + 1) := by
        rw [pow_succ]
        ring
      rw [e]
      exact h2
    · exact ih _ h1 (not_le.mp hc)

/-- The routine `isqrt` returns the integer square root. -/
theorem isqrt_spec (n : Nat) : isqrt n * isqrt n ≤ n ∧ n < (isqrt n + 1) * (isqrt n + 1) := by
  apply isqrtAux_spec n (bitLen n) 0 (Nat.zero_le _)
  have h := lt_two_pow_bitLen n
  have h1 : 1 ≤ 2 ^ bitLen n := Nat.one_le_two_pow
  calc n < 2 ^ bitLen n := h
    _ = 2 ^ bitLen n * 1 := (Nat.mul_one _).symm
    _ ≤ 2 ^ bitLen n * 2 ^ bitLen n := Nat.mul_le_mul_left _ h1
    _ = (0 + 2 ^ bitLen n) * (0 + 2 ^ bitLen n) := by rw [Nat.zero_add]

/-! ## Binary floating point: the constants of the source -/

theorem Fl.toReal_dyadic (s : Bool) (m : Nat) (e : Int) (he : -1074 ≤ e) :
    (Fl.dyadic s m e).toReal = (if s then -1 else 1) * (m : ℝ) * (2 : ℝ) ^ e := by
  unfold Fl.dyadic Fl.toReal
  obtain ⟨n, hn⟩ : ∃ n : Nat, e + 1074 = (n : Int) := ⟨(e + 1074).toNat, by omega⟩
  have he2 : e = (n : Int) - 1074 := by omega
  rw [hn, Int.toNat_natCast, he2, zpow_sub₀ (by norm_num : (2 : ℝ) ≠ 0)]
  push_cast
  simp only [zpow_natCast]
  have : ((1074 : ℕ) : ℤ) = 1074 := rfl
  rw [show ((2 : ℝ) ^ (1074 : ℤ)) = (2 : ℝ) ^ (1074 : ℕ) from by
    rw [← this, zpow_natCast]]
  ring

/-- The `float` literals of the source denote the constants of the model over the reals:
`0.1f`, `0.01f`, `0.0001f`, `3.14159265f` and `100.0f`. -/
theorem float_literals :
    (Fl.lit binary32 1 10).toReal = 13421773 / 134217728 ∧
    SURFACE_DIST_F.toReal = SURFACE_DIST ∧
    (Fl.lit binary32 1 10000).toReal = 13743895 / 137438953472 ∧
    (Fl.lit binary32 314159265 100000000).toReal = PI ∧
    MAX_DIST_F.toReal = MAX_DIST := by
  have h1 : Fl.lit binary32 1 10 = Fl.dyadic false 13421773 (-27) := by decide!
  have h2 : SURFACE_DIST_F = Fl.dyadic false 5368709 (-29) := by decide!
  have h3 : Fl.lit binary32 1 10000 = Fl.dyadic false 13743895 (-37) := by decide!
  have h4 : Fl.lit binary32 314159265 100000000 = Fl.dyadic false 13176795 (-22) := by decide!
  have h5 : MAX_DIST_F = Fl.dyadic false 100 0 := by decide!
  rw [h1, h2, h3, h4, h5]
  unfold SURFACE_DIST PI MAX_DIST
  refine ⟨?_, ?_, ?_, ?_, ?_⟩ <;> rw [Fl.toReal_dyadic _ _ _ (by norm_num)] <;> norm_num


/-! ## Euclidean length and the box distance -/

theorem vec3.length_nonneg (v : vec3) : 0 ≤ v.length := Real.sqrt_nonneg _

theorem vec3.length_sq (v : vec3) : v.length ^ 2 = v.x ^ 2 + v.y ^ 2 + v.z ^ 2 := by
  unfold vec3.length
  rw [Real.sq_sqrt (by nlinarith [mul_self_nonneg v.x, mul_self_nonneg v.y, mul_self_nonneg v.z])]
  ring

theorem vec3.length_zero : (vec3.mk 0 0 0).length = 0 := by
  simp [vec3.length]

theorem boxDist_of_nonneg {x y z : ℝ} (h : 0 ≤ max x (max y z)) :
    boxDist x y z = (vec3.mk (max x 0) (max y 0) (max z 0)).length := by
  unfold boxDist
  rw [min_eq_right h, add_zero]

theorem boxDist_of_neg {x y z : ℝ} (h : max x (max y z) < 0) :
    boxDist x y z = max x (max y z) := by
  unfold boxDist
  have hx : x < 0 := lt_of_le_of_lt (le_max_left _ _) h
  have hy : y < 0 := lt_of_le_of_lt (le_trans (le_max_left _ _) (le_max_right _ _)) h
  have hz : z < 0 := lt_of_le_of_lt (le_trans (le_max_right _ _) (le_max_right _ _)) h
  rw [max_eq_right hx.le, max_eq_right hy.le, max_eq_right hz.le, vec3.length_zero,
    min_eq_left h.le, zero_add]

/-- One component of the mixed case: the point `a` has a part `max a 0` outside, the point
`b` is at depth at least `m`. -/
theorem sq_sub_ge_of_le_neg (a b m : ℝ) (hm : 0 ≤ m) (hb : b ≤ -m) :
    (max a 0) ^ 2 + 2 * m * max a 0 ≤ (a - b) ^ 2 := by
  rcases le_total 0 a with h | h
  · rw [max_eq_left h]
    nlinarith
  · rw [max_eq_right h]
    nlinarith [sq_nonneg (a - b)]

theorem sq_sub_ge_of_nonneg {a b m : ℝ} (hm : 0 ≤ m) (hb : b ≤ -m) (ha : 0 ≤ a) :
    (max a 0 + m) ^ 2 ≤ (a - b) ^ 2 := by
  rw [max_eq_left ha]
  nlinarith

theorem length_le_sum {x y z : ℝ} (hx : 0 ≤ x) (hy : 0 ≤ y) (hz : 0 ≤ z) :
    (vec3.mk x y z).length ≤ x + y + z := by
  unfold vec3.length
  apply Real.sqrt_le_iff.mpr
  constructor
  · positivity
  · simp only
    nlinarith [mul_nonneg hx hy, mul_nonneg hx hz, mul_nonneg hy hz]

theorem sq_max_sub_max_le (a b : ℝ) : (max a 0 - max b 0) ^ 2 ≤ (a - b) ^ 2 := by
  apply sq_le_sq.mpr
  exact abs_max_sub_max_le_abs a b 0

theorem vec3.length_addition_le (u v : vec3) :
    (u.addition v).length ≤ u.length + v.length := by
  have hu := u.length_sq
  have hv := v.length_sq
  have h0 : 0 ≤ u.length * v.length := mul_nonneg u.length_nonneg v.length_nonneg
  have hsq : (dot u v) ^ 2 ≤ (u.length * v.length) ^ 2 := by
    rw [mul_pow, hu, hv]
    unfold dot
    nlinarith [sq_nonneg (u.x * v.y - u.y * v.x), sq_nonneg (u.x * v.z - u.z * v.x),
      sq_nonneg (u.y * v.z - u.z * v.y)]
  have hd : dot u v ≤ u.length * v.length := le_trans (le_abs_self _) (abs_le_of_sq_le_sq hsq h0)
  have h0 : 0 ≤ u.length + v.length := add_nonneg u.length_nonneg v.length_nonneg
  have hs : (u.addition v).length ^ 2 ≤ (u.length + v.length) ^ 2 := by
    rw [vec3.length_sq]
    unfold dot at hd
    simp only [vec3.addition]
    nlinarith
  exact abs_le_of_sq_le_sq hs h0 |> le_trans (le_abs_self _)

theorem vec3.length_sub_length_le (u v : vec3) :
    u.length - v.length ≤ (u.subtraction v).length := by
  have h := vec3.length_addition_le (u.subtraction v) v
  have e : (u.subtraction v).addition v = u := by
    cases u; cases v; simp [vec3.subtraction, vec3.addition]
  rw [e] at h
  linarith

/-- The box distance does not grow faster than the Euclidean distance of its arguments. -/
theorem boxDist_sub_le (a1 a2 a3 b1 b2 b3 : ℝ) :
    boxDist a1 a2 a3 - boxDist b1 b2 b3 ≤
      Real.sqrt ((a1 - b1) ^ 2 + (a2 - b2) ^ 2 + (a3 - b3) ^ 2) := by
  have hD0 : 0 ≤ Real.sqrt ((a1 - b1) ^ 2 + (a2 - b2) ^ 2 + (a3 - b3) ^ 2) :=
    Real.sqrt_nonneg _
  by_cases ha : 0 ≤ max a1 (max a2 a3)
  · by_cases hb : 0 ≤ max b1 (max b2 b3)
    · -- both outside: the lengths of the positive parts
      rw [boxDist_of_nonneg ha, boxDist_of_nonneg hb]
      refine le_trans (vec3.length_sub_length_le _ _) ?_
      unfold vec3.length
      apply Real.sqrt_le_sqrt
      simp only [vec3.subtraction]
      have h1 := sq_max_sub_max_le a1 b1
      have h2 := sq_max_sub_max_le a2 b2
      have h3 := sq_max_sub_max_le a3 b3
      nlinarith
    · -- the first point outside, the second inside
      push_neg at hb
      rw [boxDist_of_nonneg ha, boxDist_of_neg hb]
      obtain ⟨m, hm⟩ : ∃ m, max b1 (max b2 b3) = -m := ⟨-(max b1 (max b2 b3)), by ring⟩
      have hb1 : b1 ≤ -m := hm ▸ le_max_left _ _
      have hb2 : b2 ≤ -m := hm ▸ le_trans (le_max_left _ _) (le_max_right _ _)
      have hb3 : b3 ≤ -m := hm ▸ le_trans (le_max_right _ _) (le_max_right _ _)
      rw [hm] at hb ⊢
      have hm0 : 0 ≤ m := by linarith
      have hx1 : 0 ≤ max a1 0 := le_max_right _ _
      have hx2 : 0 ≤ max a2 0 := le_max_right _ _
      have hx3 : 0 ≤ max a3 0 := le_max_right _ _
      have hl := length_le_sum hx1 hx2 hx3
      have hl0 := (vec3.mk (max a1 0) (max a2 0) (max a3 0)).length_nonneg
      have hl2 := (vec3.mk (max a1 0) (max a2 0) (max a3 0)).length_sq
      simp only at hl2
      have c1 := sq_sub_ge_of_le_neg a1 b1 m hm0 hb1
      have c2 := sq_sub_ge_of_le_neg a2 b2 m hm0 hb2
      have c3 := sq_sub_ge_of_le_neg a3 b3 m hm0 hb3
      apply Real.le_sqrt_of_sq_le
      rcases le_max_iff.mp ha with h | h
      · have d := sq_sub_ge_of_nonneg hm0 hb1 h
        nlinarith
      rcases le_max_iff.mp h with h | h
      · have d := sq_sub_ge_of_nonneg hm0 hb2 h
        nlinarith
      · have d := sq_sub_ge_of_nonneg hm0 hb3 h
        nlinarith
  · push_neg at ha
    by_cases hb : 0 ≤ max b1 (max b2 b3)
    · rw [boxDist_of_neg ha, boxDist_of_nonneg hb]
      have := (vec3.mk (max b1 0) (max b2 0) (max b3 0)).length_nonneg
      linarith
    · push_neg at hb
      rw [boxDist_of_neg ha, boxDist_of_neg hb]
      have e1 : a1 - b1 ≤ Real.sqrt ((a1 - b1) ^ 2 + (a2 - b2) ^ 2 + (a3 - b3) ^ 2) :=
        le_trans (le_abs_self _) (Real.abs_le_sqrt (by nlinarith [sq_nonneg (a2 - b2), sq_nonneg (a3 - b3)]))
      have e2 : a2 - b2 ≤ Real.sqrt ((a1 - b1) ^ 2 + (a2 - b2) ^ 2 + (a3 - b3) ^ 2) :=
        le_trans (le_abs_self _) (Real.abs_le_sqrt (by nlinarith [sq_nonneg (a1 - b1), sq_nonneg (a3 - b3)]))
      have e3 : a3 - b3 ≤ Real.sqrt ((a1 - b1) ^ 2 + (a2 - b2) ^ 2 + (a3 - b3) ^ 2) :=
        le_trans (le_abs_self _) (Real.abs_le_sqrt (by nlinarith [sq_nonneg (a1 - b1), sq_nonneg (a2 - b2)]))
      have g1 : b1 ≤ max b1 (max b2 b3) := le_max_left _ _
      have g2 : b2 ≤ max b1 (max b2 b3) := le_trans (le_max_left _ _) (le_max_right _ _)
      have g3 : b3 ≤ max b1 (max b2 b3) := le_trans (le_max_right _ _) (le_max_right _ _)
      have : max a1 (max a2 a3) ≤ max b1 (max b2 b3) +
          Real.sqrt ((a1 - b1) ^ 2 + (a2 - b2) ^ 2 + (a3 - b3) ^ 2) := by
        refine max_le ?_ (max_le ?_ ?_) <;> linarith
      linarith

theorem boxDist_lipschitz (a1 a2 a3 b1 b2 b3 : ℝ) :
    |boxDist a1 a2 a3 - boxDist b1 b2 b3| ≤
      Real.sqrt ((a1 - b1) ^ 2 + (a2 - b2) ^ 2 + (a3 - b3) ^ 2) := by
  apply abs_le.mpr
  constructor
  · have h := boxDist_sub_le b1 b2 b3 a1 a2 a3
    have e : (b1 - a1) ^ 2 + (b2 - a2) ^ 2 + (b3 - a3) ^ 2 =
        (a1 - b1) ^ 2 + (a2 - b2) ^ 2 + (a3 - b3) ^ 2 := by ring
    rw [e] at h
    linarith
  · exact boxDist_sub_le a1 a2 a3 b1 b2 b3

/-! ## Sphere: value and sign -/

theorem sdfBoxFrame_eq (p b : vec3) (e : ℝ) :
    sdfBoxFrame p b e =
      min (min
        (boxDist (|p.x| - b.x) (|(|p.y| - b.y + e)| - e) (|(|p.z| - b.z + e)| - e))
        (boxDist (|(|p.x| - b.x + e)| - e) (|p.y| - b.y) (|(|p.z| - b.z + e)| - e)))
        (boxDist (|(|p.x| - b.x + e)| - e) (|(|p.y| - b.y + e)| - e) (|p.z| - b.z)) := rfl

theorem sdfRoundedCube_eq (p b : vec3) (e : ℝ) :
    sdfRoundedCube p b e = boxDist (|p.x| - b.x) (|p.y| - b.y) (|p.z| - b.z) - e := rfl

theorem sq_mirror_sub_le (x y c : ℝ) : ((|x| - c) - (|y| - c)) ^ 2 ≤ (x - y) ^ 2 := by
  apply sq_le_sq.mpr
  have : (|x| - c) - (|y| - c) = |x| - |y| := by ring
  rw [this]
  exact abs_abs_sub_abs_le_abs_sub x y

theorem sq_fold_sub_le (x y c e : ℝ) :
    ((|(|x| - c + e)| - e) - (|(|y| - c + e)| - e)) ^ 2 ≤ (x - y) ^ 2 := by
  apply sq_le_sq.mpr
  have h1 : (|(|x| - c + e)| - e) - (|(|y| - c + e)| - e) = |(|x| - c + e)| - |(|y| - c + e)| := by
    ring
  rw [h1]
  refine le_trans (abs_abs_sub_abs_le_abs_sub _ _) ?_
  have h2 : (|x| - c + e) - (|y| - c + e) = |x| - |y| := by ring
  rw [h2]
  exact abs_abs_sub_abs_le_abs_sub x y

/-- A box distance of mirrored and folded coordinates is 1-Lipschitz in the point. -/
theorem boxDist_lipschitz_of_sq_le (P Q : vec3) (a1 a2 a3 b1 b2 b3 : ℝ)
    (h1 : (a1 - b1) ^ 2 ≤ (P.x - Q.x) ^ 2) (h2 : (a2 - b2) ^ 2 ≤ (P.y - Q.y) ^ 2)
    (h3 : (a3 - b3) ^ 2 ≤ (P.z - Q.z) ^ 2) :
    |boxDist a1 a2 a3 - boxDist b1 b2 b3| ≤ (P.subtraction Q).length := by
  refine le_trans (boxDist_lipschitz a1 a2 a3 b1 b2 b3) ?_
  unfold vec3.length
  apply Real.sqrt_le_sqrt
  simp only [vec3.subtraction]
  nlinarith

theorem sdfBoxFrame_abs_sub_le (P Q b : vec3) (e : ℝ) :
    |sdfBoxFrame P b e - sdfBoxFrame Q b e| ≤ (P.subtraction Q).length := by
  rw [sdfBoxFrame_eq, sdfBoxFrame_eq]
  refine le_trans (abs_min_sub_min_le_max _ _ _ _) (max_le ?_ ?_)
  · refine le_trans (abs_min_sub_min_le_max _ _ _ _) (max_le ?_ ?_)
    · exact boxDist_lipschitz_of_sq_le P Q _ _ _ _ _ _ (sq_mirror_sub_le _ _ _)
        (sq_fold_sub_le _ _ _ _) (sq_fold_sub_le _ _ _ _)
    · exact boxDist_lipschitz_of_sq_le P Q _ _ _ _ _ _ (sq_fold_sub_le _ _ _ _)
        (sq_mirror_sub_le _ _ _) (sq_fold_sub_le _ _ _ _)
  · exact boxDist_lipschitz_of_sq_le P Q _ _ _ _ _ _ (sq_fold_sub_le _ _ _ _)
      (sq_fold_sub_le _ _ _ _) (sq_mirror_sub_le _ _ _)

theorem scene_abs_sub_le (P Q : vec3) : |scene P - scene Q| ≤ (P.subtraction Q).length :=
  sdfBoxFrame_abs_sub_le P Q _ _

/-- C3: the box frame field is 1-Lipschitz for the Euclidean norm, for all half-extents
`b` and every thickness `e`: `|sdfBoxFrame P b e - sdfBoxFrame Q b e| ≤ |P - Q|`, where
`|P - Q|` is `sqrt ((P.x-Q.x)² + (P.y-Q.y)² + (P.z-Q.z)²)`; in particular the live scene
(`b = (1,1,1)`, `e = 0.1`) satisfies `|scene P - scene Q| ≤ |P - Q|`. -/
theorem sdfBoxFrame_scene_one_lipschitz (P Q b : vec3) (e : ℝ) :
    (P.subtraction Q).length =
        Real.sqrt ((P.x - Q.x) ^ 2 + (P.y - Q.y) ^ 2 + (P.z - Q.z) ^ 2) ∧
    |sdfBoxFrame P b e - sdfBoxFrame Q b e| ≤ (P.subtraction Q).length ∧
    |sdfBoxFrame P ⟨1, 1, 1⟩ 0.1 - sdfBoxFrame Q ⟨1, 1, 1⟩ 0.1| ≤ (P.subtraction Q).length ∧
    |scene P - scene Q| ≤ (P.subtraction Q).length := by
  refine ⟨?_, sdfBoxFrame_abs_sub_le P Q b e, sdfBoxFrame_abs_sub_le P Q _ _,
    scene_abs_sub_le P Q⟩
  unfold vec3.length
  congr 1
  simp only [vec3.subtraction]
  ring

/-- C7: `sdfBoxFrame` and `sdfRoundedCube` do not change when any of the coordinates of
the point is multiplied by a sign `+1` or `-1`. -/
theorem sdf_sign_flip_invariant (P b : vec3) (e sx sy sz : ℝ)
    (hx : sx = 1 ∨ sx = -1) (hy : sy = 1 ∨ sy = -1) (hz : sz = 1 ∨ sz = -1) :
    sdfBoxFrame ⟨sx * P.x, sy * P.y, sz * P.z⟩ b e = sdfBoxFrame P b e ∧
    sdfRoundedCube ⟨sx * P.x, sy * P.y, sz * P.z⟩ b e = sdfRoundedCube P b e := by
  have ex : |sx * P.x| = |P.x| := by
    rcases hx with h | h <;> simp [h]
  have ey : |sy * P.y| = |P.y| := by
    rcases hy with h | h <;> simp [h]
  have ez : |sz * P.z| = |P.z| := by
    rcases hz with h | h <;> simp [h]
  constructor
  · rw [sdfBoxFrame_eq, sdfBoxFrame_eq]
    simp only [ex, ey, ez]
  · rw [sdfRoundedCube_eq, sdfRoundedCube_eq]
    simp only [ex, ey, ez]

theorem sdf_sign_flip_invariant_witness :
    sdfBoxFrame ⟨(-1) * 2, 1 * 3, (-1) * (-1 / 2)⟩ ⟨1, 1, 1⟩ 0.1 =
        sdfBoxFrame ⟨2, 3, -1 / 2⟩ ⟨1, 1, 1⟩ 0.1 ∧
    sdfRoundedCube ⟨(-1) * 2, 1 * 3, (-1) * (-1 / 2)⟩ ⟨1, 1, 1⟩ 0.1 =
        sdfRoundedCube ⟨2, 3, -1 / 2⟩ ⟨1, 1, 1⟩ 0.1 :=
  sdf_sign_flip_invariant ⟨2, 3, -1 / 2⟩ ⟨1, 1, 1⟩ 0.1 (-1) 1 (-1)
    (Or.inr rfl) (Or.inl rfl) (Or.inr rfl)


/-! ## The marching loop -/

theorem raymarchRun_succ (field : vec3 → ℝ) (ro rd : vec3) (n : Nat) (t : ℝ) :
    raymarchRun field ro rd (n + 1) t =
      if t + field (ro.addition (rd.scalarMul t)) > MAX_DIST ∨
          field (ro.addition (rd.scalarMul t)) < SURFACE_DIST then
        (t + field (ro.addition (rd.scalarMul t)), [t])
      else
        ((raymarchRun field ro rd n (t + field (ro.addition (rd.scalarMul t)))).1,
          t :: (raymarchRun field ro rd n (t + field (ro.addition (rd.scalarMul t)))).2) :=
  rfl

/-- A ray along which the field never falls below the surface epsilon and along which
one step from `t` leads at least to `g t`, for a monotone `g` whose `k + 1`-th iterate
exceeds the maximum distance, leaves the loop after at most `k + 1` iterations with a
distance above the maximum. -/
theorem raymarchRun_miss (field : vec3 → ℝ) (ro rd : vec3) (g : ℝ → ℝ) (hg : Monotone g)
    (hstep : ∀ t, 0 ≤ t → g t ≤ t + field (ro.addition (rd.scalarMul t)))
    (hpos : ∀ t, 0 ≤ t → SURFACE_DIST ≤ field (ro.addition (rd.scalarMul t))) :
    ∀ (k n : Nat) (t : ℝ), k < n → 0 ≤ t → MAX_DIST < g^[k + 1] t →
      MAX_DIST < (raymarchRun field ro rd n t).1 ∧
        (raymarchRun field ro rd n t).2.length ≤ k + 1 := by
  intro k
  induction k with
  | zero =>
    intro n t hn ht hk
    obtain ⟨m, rfl⟩ : ∃ m, n = m + 1 := ⟨n - 1, by omega⟩
    rw [raymarchRun_succ]
    have h1 := hstep t ht
    simp only [Function.iterate_succ, Function.iterate_zero, Function.comp_apply, id_eq] at hk
    have h2 : t + field (ro.addition (rd.scalarMul t)) > MAX_DIST := lt_of_lt_of_le hk h1
    rw [if_pos (Or.inl h2)]
    exact ⟨h2, by simp⟩
  | succ k ih =>
    intro n t hn ht hk
    obtain ⟨m, rfl⟩ : ∃ m, n = m + 1 := ⟨n - 1, by omega⟩
    rw [raymarchRun_succ]
    have h1 := hstep t ht
    have h0 := hpos t ht
    have hS : (0 : ℝ) < SURFACE_DIST := by unfold SURFACE_DIST; norm_num
    split_ifs with hc
    · rcases hc with hc | hc
      · exact ⟨hc, by simp⟩
      · exact absurd hc (not_lt.mpr h0)
    · have ht' : 0 ≤ t + field (ro.addition (rd.scalarMul t)) := by linarith
      have hk' : MAX_DIST < g^[k + 1] (t + field (ro.addition (rd.scalarMul t))) := by
        rw [Function.iterate_succ_apply] at hk
        exact lt_of_lt_of_le hk ((hg.iterate (k + 1)) h1)
      have := ih m _ (by omega) ht' hk'
      refine ⟨this.1, ?_⟩
      simp only [List.length_cons]
      omega


/-! ## Lower bounds of the box frame field -/

theorem vec3.abs_le_length_x (v : vec3) : |v.x| ≤ v.length := by
  unfold vec3.length
  apply Real.abs_le_sqrt
  nlinarith [sq_nonneg v.y, sq_nonneg v.z]

theorem vec3.abs_le_length_y (v : vec3) : |v.y| ≤ v.length := by
  unfold vec3.length
  apply Real.abs_le_sqrt
  nlinarith [sq_nonneg v.x, sq_nonneg v.z]

theorem vec3.abs_le_length_z (v : vec3) : |v.z| ≤ v.length := by
  unfold vec3.length
  apply Real.abs_le_sqrt
  nlinarith [sq_nonneg v.x, sq_nonneg v.y]

theorem boxDist_ge_max (x y z : ℝ) : max x (max y z) ≤ boxDist x y z := by
  by_cases h : 0 ≤ max x (max y z)
  · rw [boxDist_of_nonneg h]
    have hx := (vec3.mk (max x 0) (max y 0) (max z 0)).abs_le_length_x
    have hy := (vec3.mk (max x 0) (max y 0) (max z 0)).abs_le_length_y
    have hz := (vec3.mk (max x 0) (max y 0) (max z 0)).abs_le_length_z
    simp only at hx hy hz
    refine max_le ?_ (max_le ?_ ?_)
    · exact le_trans (le_max_left x 0) (le_trans (le_abs_self _) hx)
    · exact le_trans (le_max_left y 0) (le_trans (le_abs_self _) hy)
    · exact le_trans (le_max_left z 0) (le_trans (le_abs_self _) hz)
  · push_neg at h
    rw [boxDist_of_neg h]

theorem boxDist_ge_x (x y z : ℝ) : x ≤ boxDist x y z :=
  le_trans (le_max_left _ _) (boxDist_ge_max x y z)

theorem boxDist_ge_y (x y z : ℝ) : y ≤ boxDist x y z :=
  le_trans (le_trans (le_max_left _ _) (le_max_right _ _)) (boxDist_ge_max x y z)

theorem boxDist_ge_z (x y z : ℝ) : z ≤ boxDist x y z :=
  le_trans (le_trans (le_max_right _ _) (le_max_right _ _)) (boxDist_ge_max x y z)

theorem le_fold (x e : ℝ) : x ≤ |x + e| - e := by
  have := le_abs_self (x + e)
  linarith

/-- The frame field is at least the distance to each of the three slabs `|p_i| ≤ b_i`. -/
theorem sdfBoxFrame_ge_x (p b : vec3) (e : ℝ) : |p.x| - b.x ≤ sdfBoxFrame p b e := by
  rw [sdfBoxFrame_eq]
  refine le_min (le_min ?_ ?_) ?_
  · exact boxDist_ge_x _ _ _
  · exact le_trans (le_fold _ _) (boxDist_ge_x _ _ _)
  · exact le_trans (le_fold _ _) (boxDist_ge_x _ _ _)

theorem sdfBoxFrame_ge_y (p b : vec3) (e : ℝ) : |p.y| - b.y ≤ sdfBoxFrame p b e := by
  rw [sdfBoxFrame_eq]
  refine le_min (le_min ?_ ?_) ?_
  · exact le_trans (le_fold _ _) (boxDist_ge_y _ _ _)
  · exact boxDist_ge_y _ _ _
  · exact le_trans (le_fold _ _) (boxDist_ge_y _ _ _)

theorem sdfBoxFrame_ge_z (p b : vec3) (e : ℝ) : |p.z| - b.z ≤ sdfBoxFrame p b e := by
  rw [sdfBoxFrame_eq]
  refine le_min (le_min ?_ ?_) ?_
  · exact le_trans (le_fold _ _) (boxDist_ge_z _ _ _)
  · exact le_trans (le_fold _ _) (boxDist_ge_z _ _ _)
  · exact boxDist_ge_z _ _ _

/-- On the axis through the centres of two opposite faces a frame of half-extents
`(1, 1, 1)` and thickness `e` is at least `1 - 2 e` away. -/
theorem sdfBoxFrame_zaxis_ge (z e : ℝ) (he1 : e ≤ 1) :
    1 - 2 * e ≤ sdfBoxFrame ⟨0, 0, z⟩ ⟨1, 1, 1⟩ e := by
  rw [sdfBoxFrame_eq]
  have e1 : |(|(0 : ℝ)| - 1 + e)| - e = 1 - 2 * e := by
    rw [abs_zero, abs_of_nonpos (by linarith)]
    ring
  simp only [e1]
  refine le_min (le_min ?_ ?_) ?_
  · exact boxDist_ge_y _ _ _
  · exact boxDist_ge_x _ _ _
  · exact boxDist_ge_x _ _ _

/-- On the axis through the centres of two opposite faces the live frame is at least
`1 - 2 * 0.1f = 53687091 / 2^26 = 0.79999999702…` away. -/
theorem scene_zaxis_ge (z : ℝ) : 53687091 / 67108864 ≤ scene ⟨0, 0, z⟩ := by
  have h := sdfBoxFrame_zaxis_ge z (13421773 / 134217728) (by norm_num)
  have e : (1 : ℝ) - 2 * (13421773 / 134217728) = 53687091 / 67108864 := by norm_num
  rw [e] at h
  exact h

/-! ## The ray from `(0, 0, 5)` towards `(0, 0, -1)` -/

theorem raymarchRun_zaxis :
    MAX_DIST < (raymarchRun scene ⟨0, 0, 5⟩ ⟨0, 0, -1⟩ MAX_STEPS 0).1 ∧
      (raymarchRun scene ⟨0, 0, 5⟩ ⟨0, 0, -1⟩ MAX_STEPS 0).2.length ≤ 16 := by
  have hray : ∀ t : ℝ, (vec3.mk 0 0 5).addition ((vec3.mk 0 0 (-1)).scalarMul t) =
      ⟨0, 0, 5 - t⟩ := by
    intro t
    simp only [vec3.addition, vec3.scalarMul]
    congr 1 <;> ring
  refine raymarchRun_miss scene _ _ (fun t => max (t + 79 / 100) (2 * t - 6)) ?_ ?_ ?_
    15 MAX_STEPS 0 (by unfold MAX_STEPS; omega) le_rfl ?_
  · intro a b hab
    exact max_le_max (by linarith) (by linarith)
  · intro t _
    rw [hray]
    have h1 := scene_zaxis_ge (5 - t)
    have h2 : |5 - t| - 1 ≤ scene ⟨0, 0, 5 - t⟩ := sdfBoxFrame_ge_z ⟨0, 0, 5 - t⟩ ⟨1, 1, 1⟩ _
    have h3 : t - 5 ≤ |5 - t| := by
      have := neg_abs_le (5 - t)
      linarith
    refine max_le ?_ ?_ <;> linarith
  · intro t _
    rw [hray]
    have h1 := scene_zaxis_ge (5 - t)
    unfold SURFACE_DIST
    linarith
  · unfold MAX_DIST
    simp only [Function.iterate_succ, Function.iterate_zero, Function.comp_apply, id_eq]
    norm_num [max_def]

/-- C1 (as stated, refuted): the march from `(0, 0, 5)` towards `(0, 0, -1)` does not
return a value in `[3.8, 4.2]` after fewer than 100 iterations. -/
theorem raymarch_zaxis_not_hit :
    ¬ ((raymarchSamples scene ⟨0, 0, 5⟩ ⟨0, 0, -1⟩).length < 100 ∧
        3.8 ≤ raymarch ⟨0, 0, 5⟩ ⟨0, 0, -1⟩ ∧ raymarch ⟨0, 0, 5⟩ ⟨0, 0, -1⟩ ≤ 4.2) := by
  rintro ⟨-, -, h⟩
  have := raymarchRun_zaxis.1
  unfold raymarch raymarchWith at h
  unfold MAX_DIST at this
  linarith

/-- C1 (amended): with the live box-frame scene the march from `(0, 0, 5)` towards
`(0, 0, -1)` leaves its loop after fewer than 100 iterations, and the value it returns
exceeds the maximum marching distance 100: the ray passes through the open face of the
frame and misses. -/
theorem raymarch_zaxis_miss :
    (raymarchSamples scene ⟨0, 0, 5⟩ ⟨0, 0, -1⟩).length < 100 ∧
      100 < raymarch ⟨0, 0, 5⟩ ⟨0, 0, -1⟩ := by
  have h := raymarchRun_zaxis
  unfold MAX_DIST at h
  unfold raymarch raymarchWith raymarchSamples
  exact ⟨by omega, h.1⟩


/-! ## How the loop is left -/

/-- The loop, started with at least one iteration left, is left in one of three ways:
the last sample was below the surface epsilon, the distance exceeds the maximum, or all
the iterations were used. -/
theorem raymarchRun_exit (field : vec3 → ℝ) (ro rd : vec3) :
    ∀ (n : Nat) (t : ℝ),
      (raymarchRun field ro rd (n + 1) t).2.length ≤ n + 1 ∧
      ∃ s, (raymarchRun field ro rd (n + 1) t).2.getLast? = some s ∧
        (raymarchRun field ro rd (n + 1) t).1 = s + field (ro.addition (rd.scalarMul s)) ∧
        ((raymarchRun field ro rd (n + 1) t).1 ≤ MAX_DIST →
          field (ro.addition (rd.scalarMul s)) < SURFACE_DIST ∨
            (raymarchRun field ro rd (n + 1) t).2.length = n + 1) := by
  intro n
  induction n with
  | zero =>
    intro t
    rw [raymarchRun_succ]
    split_ifs with hc
    · exact ⟨by simp, t, rfl, rfl, fun _ => Or.inr rfl⟩
    · exact ⟨by simp [raymarchRun], t, rfl, rfl, fun _ => Or.inr rfl⟩
  | succ n ih =>
    intro t
    rw [raymarchRun_succ]
    split_ifs with hc
    · refine ⟨by simp, t, rfl, rfl, fun h => ?_⟩
      rcases hc with hc | hc
      · exact absurd h (not_le.mpr hc)
      · exact Or.inl hc
    · obtain ⟨hl, s, h1, h2, h3⟩ := ih (t + field (ro.addition (rd.scalarMul t)))
      refine ⟨by simpa using hl, s, ?_, h2, fun h => ?_⟩
      · simp only
        rw [List.getLast?_cons, h1]
        rfl
      · rcases h3 h with h4 | h4
        · exact Or.inl h4
        · exact Or.inr (by simp [h4])

/-! ## A ray that neither hits nor misses within the step cap -/

/-- The box distance of a point whose third coordinate is the largest, the other two
being non-positive. -/
theorem boxDist_eq_z (x y z : ℝ) (hx : x ≤ 0) (hy : y ≤ 0) (hxz : x ≤ z) (hyz : y ≤ z) :
    boxDist x y z = z := by
  have hm : max x (max y z) = z := by
    rw [max_eq_right hyz, max_eq_right hxz]
  by_cases hz : 0 ≤ z
  · have hl : (vec3.mk 0 0 z).length = z := by
      unfold vec3.length
      simp only [mul_zero, zero_add]
      exact Real.sqrt_mul_self hz
    rw [boxDist_of_nonneg (by rw [hm]; exact hz), max_eq_right hx, max_eq_right hy,
      max_eq_left hz, hl]
  · push_neg at hz
    rw [boxDist_of_neg (by rw [hm]; exact hz), hm]

theorem sdfBoxFrame_bar_top (x e : ℝ) (hx : |x| ≤ 1) (he : 1 / 20 ≤ e) :
    sdfBoxFrame ⟨x, 0.95, 1.02⟩ ⟨1, 1, 1⟩ e = 1 / 50 := by
  rw [sdfBoxFrame_eq]
  simp only
  have py : |(0.95 : ℝ)| - 1 = -(1 / 20) := by norm_num [abs_of_pos]
  have pz : |(1.02 : ℝ)| - 1 = 1 / 50 := by norm_num [abs_of_pos]
  have ey : |(-(1 / 20) + e)| - e = -(1 / 20) := by
    rw [abs_of_nonneg (by linarith)]
    ring
  have ez : |(1 / 50 + e)| - e = 1 / 50 := by
    rw [abs_of_nonneg (by linarith)]
    ring
  rw [py, pz, ey, ez]
  have d1 : boxDist (|x| - 1) (-(1 / 20)) (1 / 50) = 1 / 50 :=
    boxDist_eq_z _ _ _ (by linarith) (by norm_num) (by linarith) (by norm_num)
  rw [d1]
  have d2 := boxDist_ge_z (|(|x| - 1 + e)| - e) (-(1 / 20)) (1 / 50)
  rw [min_eq_left d2, min_eq_left d2]

theorem scene_bar_top (x : ℝ) (hx : |x| ≤ 1) : scene ⟨x, 0.95, 1.02⟩ = 1 / 50 :=
  sdfBoxFrame_bar_top x (13421773 / 134217728) hx (by norm_num)

theorem raymarchRun_bar_top :
    ∀ (n : Nat) (t : ℝ), 0 ≤ t → t + (n + 1) / 50 ≤ 2 →
      (raymarchRun scene ⟨-1, 0.95, 1.02⟩ ⟨1, 0, 0⟩ (n + 1) t).1 = t + (n + 1) / 50 ∧
      (raymarchRun scene ⟨-1, 0.95, 1.02⟩ ⟨1, 0, 0⟩ (n + 1) t).2.length = n + 1 ∧
      (raymarchRun scene ⟨-1, 0.95, 1.02⟩ ⟨1, 0, 0⟩ (n + 1) t).2.getLast? =
        some (t + n / 50) := by
  have hray : ∀ t : ℝ, (vec3.mk (-1) 0.95 1.02).addition ((vec3.mk 1 0 0).scalarMul t) =
      ⟨-1 + t, 0.95, 1.02⟩ := by
    intro t
    simp only [vec3.addition, vec3.scalarMul]
    congr 1 <;> ring
  intro n
  induction n with
  | zero =>
    intro t h0 h2
    have hx : |(-1 + t)| ≤ 1 := abs_le.mpr ⟨by linarith, by norm_num at h2; linarith⟩
    rw [raymarchRun_succ, hray, scene_bar_top _ hx]
    have hc : ¬ (t + 1 / 50 > MAX_DIST ∨ (1 / 50 : ℝ) < SURFACE_DIST) := by
      unfold MAX_DIST SURFACE_DIST
      norm_num at h2 ⊢
      linarith
    rw [if_neg hc]
    simp [raymarchRun]
  | succ n ih =>
    intro t h0 h2
    push_cast at h2
    have hn : (0 : ℝ) ≤ n := Nat.cast_nonneg n
    have hx : |(-1 + t)| ≤ 1 := abs_le.mpr ⟨by linarith, by linarith⟩
    rw [raymarchRun_succ, hray, scene_bar_top _ hx]
    have hc : ¬ (t + 1 / 50 > MAX_DIST ∨ (1 / 50 : ℝ) < SURFACE_DIST) := by
      unfold MAX_DIST SURFACE_DIST
      norm_num
      linarith
    rw [if_neg hc]
    obtain ⟨h3, h4, h5⟩ := ih (t + 1 / 50) (by linarith) (by linarith)
    refine ⟨?_, ?_, ?_⟩
    · simp only
      rw [h3]
      push_cast
      ring
    · simp only [List.length_cons]
      rw [h4]
    · simp only
      rw [List.getLast?_cons, h5]
      simp only [Option.getD_some]
      congr 1
      push_cast
      ring

/-- C2 (as stated, refuted): the ray from `(-1, 0.95, 1.02)` in the direction `(1, 0, 0)`
runs at height `0.02` over the top face of a bar. The march returns `2`, which does not
exceed the maximum distance, and yet the scene distance sampled in the final iteration
(the 100th, at distance `1.98`) is `0.02`, not below the surface epsilon `0.01`. -/
theorem raymarch_neither_hit_nor_miss :
    raymarch ⟨-1, 0.95, 1.02⟩ ⟨1, 0, 0⟩ = 2 ∧
    raymarch ⟨-1, 0.95, 1.02⟩ ⟨1, 0, 0⟩ ≤ 100 ∧
    (raymarchSamples scene ⟨-1, 0.95, 1.02⟩ ⟨1, 0, 0⟩).length = 100 ∧
    (raymarchSamples scene ⟨-1, 0.95, 1.02⟩ ⟨1, 0, 0⟩).getLast? = some (99 / 50) ∧
    scene ((vec3.mk (-1) 0.95 1.02).addition ((vec3.mk 1 0 0).scalarMul (99 / 50))) = 1 / 50 ∧
    ¬ scene ((vec3.mk (-1) 0.95 1.02).addition ((vec3.mk 1 0 0).scalarMul (99 / 50))) < 0.01 := by
  obtain ⟨h1, h2, h3⟩ := raymarchRun_bar_top 99 0 le_rfl (by norm_num)
  have hs : scene ((vec3.mk (-1) 0.95 1.02).addition ((vec3.mk 1 0 0).scalarMul (99 / 50)))
      = 1 / 50 := by
    have e : (vec3.mk (-1) 0.95 1.02).addition ((vec3.mk 1 0 0).scalarMul (99 / 50)) =
        ⟨49 / 50, 0.95, 1.02⟩ := by
      simp only [vec3.addition, vec3.scalarMul]
      congr 1 <;> norm_num
    rw [e]
    exact scene_bar_top _ (by rw [abs_of_pos] <;> norm_num)
  have hv : raymarch ⟨-1, 0.95, 1.02⟩ ⟨1, 0, 0⟩ = 2 := by
    unfold raymarch raymarchWith MAX_STEPS
    rw [h1]
    norm_num
  refine ⟨hv, by rw [hv]; norm_num, ?_, ?_, hs, by rw [hs]; norm_num⟩
  · unfold raymarchSamples MAX_STEPS
    exact h2
  · unfold raymarchSamples MAX_STEPS
    rw [h3]
    norm_num

/-- C2 (amended): for every origin `O` and direction `D`, the value returned by
`raymarch O D` is the last sampled distance plus the scene value there; if the returned
value does not exceed the maximum marching distance 100, then either that last scene
value was below the surface epsilon 0.01 (hit) or the loop used all of its 100
iterations (step cap); otherwise the returned value exceeds 100 (miss). -/
theorem raymarch_outcomes (O D : vec3) :
    (raymarchSamples scene O D).length ≤ 100 ∧
    ∃ t, (raymarchSamples scene O D).getLast? = some t ∧
      raymarch O D = t + scene (O.addition (D.scalarMul t)) ∧
      (raymarch O D ≤ 100 →
        scene (O.addition (D.scalarMul t)) < 0.01 ∨
          (raymarchSamples scene O D).length = 100) ∧
      (¬ raymarch O D ≤ 100 → 100 < raymarch O D) := by
  obtain ⟨hl, s, h1, h2, h3⟩ := raymarchRun_exit scene O D 99 0
  unfold raymarchSamples raymarch raymarchWith MAX_STEPS
  refine ⟨hl, s, h1, h2, fun h => ?_, fun h => not_le.mp h⟩
  have := h3 (by unfold MAX_DIST; exact h)
  unfold SURFACE_DIST at this
  rcases this with h4 | h4
  · exact Or.inl (lt_trans h4 (by norm_num))
  · exact Or.inr h4


/-! ## Sphere tracing does not overshoot -/

theorem vec3.addition_scalarMul_zero (ro rd : vec3) : ro.addition (rd.scalarMul 0) = ro := by
  cases ro
  simp [vec3.addition, vec3.scalarMul]

/-- Two points of a ray are as far apart as their parameters, times the length of the
direction. -/
theorem length_ray_sub (ro rd : vec3) (a b : ℝ) :
    ((ro.addition (rd.scalarMul a)).subtraction (ro.addition (rd.scalarMul b))).length =
      |a - b| * rd.length := by
  unfold vec3.length
  simp only [vec3.addition, vec3.scalarMul, vec3.subtraction]
  have e : (ro.x + rd.x * a - (ro.x + rd.x * b)) * (ro.x + rd.x * a - (ro.x + rd.x * b)) +
      (ro.y + rd.y * a - (ro.y + rd.y * b)) * (ro.y + rd.y * a - (ro.y + rd.y * b)) +
      (ro.z + rd.z * a - (ro.z + rd.z * b)) * (ro.z + rd.z * a - (ro.z + rd.z * b)) =
      (a - b) ^ 2 * (rd.x * rd.x + rd.y * rd.y + rd.z * rd.z) := by ring
  rw [e, Real.sqrt_mul (sq_nonneg _), Real.sqrt_sq_eq_abs]

/-- Over a 1-Lipschitz field and along a direction of length one, a march that starts at
a point of non-negative field value only visits such points, and its distances do not
decrease. -/
theorem raymarchRun_safe (field : vec3 → ℝ) (ro rd : vec3)
    (hL : ∀ P Q, |field P - field Q| ≤ (P.subtraction Q).length) (hD : rd.length = 1) :
    ∀ (n : Nat) (t : ℝ), 0 ≤ field (ro.addition (rd.scalarMul t)) →
      t ≤ (raymarchRun field ro rd n t).1 ∧
      0 ≤ field (ro.addition (rd.scalarMul (raymarchRun field ro rd n t).1)) ∧
      (∀ s ∈ (raymarchRun field ro rd n t).2,
        t ≤ s ∧ 0 ≤ field (ro.addition (rd.scalarMul s))) ∧
      List.Pairwise (fun a b => a ≤ b)
        ((raymarchRun field ro rd n t).2 ++ [(raymarchRun field ro rd n t).1]) := by
  have hnext : ∀ t : ℝ, 0 ≤ field (ro.addition (rd.scalarMul t)) →
      0 ≤ field (ro.addition (rd.scalarMul (t + field (ro.addition (rd.scalarMul t))))) := by
    intro t ht
    have h1 := hL (ro.addition (rd.scalarMul t))
      (ro.addition (rd.scalarMul (t + field (ro.addition (rd.scalarMul t)))))
    rw [length_ray_sub, hD, mul_one] at h1
    have h2 : |t - (t + field (ro.addition (rd.scalarMul t)))| =
        field (ro.addition (rd.scalarMul t)) := by
      rw [show t - (t + field (ro.addition (rd.scalarMul t))) =
        -field (ro.addition (rd.scalarMul t)) by ring, abs_neg, abs_of_nonneg ht]
    rw [h2] at h1
    have h3 := (abs_le.mp h1).2
    linarith
  intro n
  induction n with
  | zero =>
    intro t ht
    simp [raymarchRun, ht]
  | succ n ih =>
    intro t ht
    rw [raymarchRun_succ]
    have hn := hnext t ht
    split_ifs with hc
    · refine ⟨by simp only; linarith, hn, ?_, ?_⟩
      · intro s hs
        simp only [List.mem_singleton] at hs
        subst hs
        exact ⟨le_rfl, ht⟩
      · simp only [List.singleton_append, List.pairwise_cons, List.mem_singleton, forall_eq,
          List.not_mem_nil, false_implies, implies_true, List.Pairwise.nil, and_true]
        linarith
    · obtain ⟨h1, h2, h3, h4⟩ := ih (t + field (ro.addition (rd.scalarMul t))) hn
      refine ⟨by simp only; linarith, h2, ?_, ?_⟩
      · intro s hs
        simp only [List.mem_cons] at hs
        rcases hs with hs | hs
        · subst hs
          exact ⟨le_rfl, ht⟩
        · exact ⟨by linarith [(h3 s hs).1], (h3 s hs).2⟩
      · simp only [List.cons_append, List.pairwise_cons]
        refine ⟨?_, h4⟩
        intro a ha
        simp only [List.mem_append, List.mem_singleton] at ha
        rcases ha with ha | ha
        · linarith [(h3 a ha).1]
        · subst ha
          linarith

theorem raymarchRun_head (field : vec3 → ℝ) (ro rd : vec3) (n : Nat) (t : ℝ) :
    (raymarchRun field ro rd (n + 1) t).2.head? = some t := by
  rw [raymarchRun_succ]
  split_ifs <;> rfl

/-- C4 (amended): over exact real arithmetic, sphere tracing over the live scene never
overshoots. For every origin `O` with
`scene O ≥ 0` and every direction `D` of length one, every point `O + D*t` sampled by
`raymarch` and the end point `O + D * raymarch O D` have a non-negative scene value; the
travelled distance starts at `0` and never decreases from one step to the next, so the
result is non-negative. -/
theorem raymarch_no_overshoot (O D : vec3) (hO : 0 ≤ scene O) (hD : D.length = 1) :
    (∀ t ∈ raymarchSamples scene O D, 0 ≤ scene (O.addition (D.scalarMul t))) ∧
    0 ≤ scene (O.addition (D.scalarMul (raymarch O D))) ∧
    (raymarchSamples scene O D).head? = some 0 ∧
    List.Pairwise (fun a b => a ≤ b) (raymarchSamples scene O D ++ [raymarch O D]) ∧
    0 ≤ raymarch O D := by
  have h0 : 0 ≤ scene (O.addition (D.scalarMul 0)) := by
    rw [vec3.addition_scalarMul_zero]
    exact hO
  obtain ⟨h1, h2, h3, h4⟩ := raymarchRun_safe scene O D scene_abs_sub_le hD MAX_STEPS 0 h0
  unfold raymarchSamples raymarch raymarchWith
  exact ⟨fun t ht => (h3 t ht).2, h2, raymarchRun_head scene O D 99 0, h4, h1⟩

theorem raymarch_no_overshoot_witness :
    (∀ t ∈ raymarchSamples scene ⟨0, 0, 5⟩ ⟨0, 0, -1⟩,
      0 ≤ scene ((vec3.mk 0 0 5).addition ((vec3.mk 0 0 (-1)).scalarMul t))) ∧
    0 ≤ scene ((vec3.mk 0 0 5).addition
      ((vec3.mk 0 0 (-1)).scalarMul (raymarch ⟨0, 0, 5⟩ ⟨0, 0, -1⟩))) ∧
    (raymarchSamples scene ⟨0, 0, 5⟩ ⟨0, 0, -1⟩).head? = some 0 ∧
    List.Pairwise (fun a b => a ≤ b)
      (raymarchSamples scene ⟨0, 0, 5⟩ ⟨0, 0, -1⟩ ++ [raymarch ⟨0, 0, 5⟩ ⟨0, 0, -1⟩]) ∧
    0 ≤ raymarch ⟨0, 0, 5⟩ ⟨0, 0, -1⟩ :=
  raymarch_no_overshoot ⟨0, 0, 5⟩ ⟨0, 0, -1⟩
    (le_trans (by norm_num) (scene_zaxis_ge 5))
    (by simp [vec3.length])


/-! ## A ray that points away from the frame -/

/-- The point at distance `t` on the ray from `O` along `O / |O|` is `O` stretched by
`1 + t / |O|`; its length is `|O| + t`. -/
theorem length_ray_outward (O : vec3) (t : ℝ) (hO : 0 < O.length) (ht : 0 ≤ t) :
    (O.addition (O.normalise.scalarMul t)).length = O.length + t := by
  have hL := O.length_sq
  have e : (O.addition (O.normalise.scalarMul t)).length ^ 2 = (O.length + t) ^ 2 := by
    rw [vec3.length_sq]
    simp only [vec3.addition, vec3.scalarMul, vec3.normalise]
    have hne : O.length ≠ 0 := ne_of_gt hO
    field_simp
    nlinarith [hL]
  have h1 : 0 ≤ O.length + t := by linarith
  calc (O.addition (O.normalise.scalarMul t)).length
      = |(O.addition (O.normalise.scalarMul t)).length| := (abs_of_nonneg (vec3.length_nonneg _)).symm
    _ = |O.length + t| := (sq_eq_sq_iff_abs_eq_abs _ _).mp e
    _ = O.length + t := abs_of_nonneg h1

/-- The length is at most `7/4` of the largest absolute coordinate (`√3 < 7/4`). -/
theorem vec3.length_le_max_abs (v : vec3) (m : ℝ) (hx : |v.x| ≤ m) (hy : |v.y| ≤ m)
    (hz : |v.z| ≤ m) : v.length ≤ 7 / 4 * m := by
  have hm : 0 ≤ m := le_trans (abs_nonneg _) hx
  unfold vec3.length
  apply Real.sqrt_le_iff.mpr
  refine ⟨by positivity, ?_⟩
  have h1 : v.x * v.x ≤ m * m := by
    have := abs_le.mp hx
    nlinarith
  have h2 : v.y * v.y ≤ m * m := by
    have := abs_le.mp hy
    nlinarith
  have h3 : v.z * v.z ≤ m * m := by
    have := abs_le.mp hz
    nlinarith
  nlinarith

/-- The live frame field grows at least like `4/7` of the distance from the centre. -/
theorem scene_ge_length (p : vec3) : 4 / 7 * p.length - 1 ≤ scene p := by
  have hx : |p.x| ≤ scene p + 1 := by
    have := sdfBoxFrame_ge_x p ⟨1, 1, 1⟩ (13421773 / 134217728)
    unfold scene
    simp only at this ⊢
    linarith
  have hy : |p.y| ≤ scene p + 1 := by
    have := sdfBoxFrame_ge_y p ⟨1, 1, 1⟩ (13421773 / 134217728)
    unfold scene
    simp only at this ⊢
    linarith
  have hz : |p.z| ≤ scene p + 1 := by
    have := sdfBoxFrame_ge_z p ⟨1, 1, 1⟩ (13421773 / 134217728)
    unfold scene
    simp only at this ⊢
    linarith
  have := p.length_le_max_abs (scene p + 1) hx hy hz
  linarith

theorem raymarchRun_outward (O : vec3) (hO : 2 ≤ O.length) :
    MAX_DIST < (raymarchRun scene O O.normalise MAX_STEPS 0).1 ∧
      (raymarchRun scene O O.normalise MAX_STEPS 0).2.length ≤ 14 := by
  have hpos : 0 < O.length := by linarith
  have hfield : ∀ t : ℝ, 0 ≤ t →
      4 / 7 * t + 1 / 7 ≤ scene (O.addition (O.normalise.scalarMul t)) := by
    intro t ht
    have h1 := scene_ge_length (O.addition (O.normalise.scalarMul t))
    rw [length_ray_outward O t hpos ht] at h1
    linarith
  refine raymarchRun_miss scene _ _ (fun t => 11 / 7 * t + 1 / 7) ?_ ?_ ?_
    13 MAX_STEPS 0 (by unfold MAX_STEPS; omega) le_rfl ?_
  · intro a b hab
    simp only
    linarith
  · intro t ht
    have := hfield t ht
    simp only
    linarith
  · intro t ht
    have := hfield t ht
    unfold SURFACE_DIST
    linarith
  · unfold MAX_DIST
    simp only [Function.iterate_succ, Function.iterate_zero, Function.comp_apply, id_eq]
    norm_num

/-- C5: a ray aimed away from all geometry is reported as a miss. With the live box-frame
scene, for every origin `O` with `|O| ≥ 2` and the direction `D = O / |O|`,
`raymarch O D` returns a value that is at least (indeed above) the maximum marching
distance 100. -/
theorem raymarch_outward_miss (O : vec3) (hO : 2 ≤ O.length) :
    100 ≤ raymarch O O.normalise ∧ 100 < raymarch O O.normalise := by
  have h := (raymarchRun_outward O hO).1
  unfold MAX_DIST at h
  unfold raymarch raymarchWith
  exact ⟨le_of_lt h, h⟩

theorem raymarch_outward_miss_witness :
    2 ≤ (vec3.mk 0 0 3).length ∧
    100 ≤ raymarch ⟨0, 0, 3⟩ (vec3.mk 0 0 3).normalise ∧
    100 < raymarch ⟨0, 0, 3⟩ (vec3.mk 0 0 3).normalise :=
  have h : 2 ≤ (vec3.mk 0 0 3).length := by
    unfold vec3.length
    apply Real.le_sqrt_of_sq_le
    norm_num
  ⟨h, raymarch_outward_miss ⟨0, 0, 3⟩ h⟩

/-! ## The unit sphere as the scene -/

theorem length_ray_inward (O : vec3) (hO : 0 < O.length) :
    (O.addition ((O.normalise.scalarMul (-1)).scalarMul (O.length - 1))).length = 1 := by
  have hL := O.length_sq
  have hne : O.length ≠ 0 := ne_of_gt hO
  have e : (O.addition ((O.normalise.scalarMul (-1)).scalarMul (O.length - 1))).length ^ 2
      = 1 ^ 2 := by
    rw [vec3.length_sq]
    simp only [vec3.addition, vec3.scalarMul, vec3.normalise]
    field_simp
    nlinarith [hL]
  calc _ = |(O.addition ((O.normalise.scalarMul (-1)).scalarMul (O.length - 1))).length| :=
        (abs_of_nonneg (vec3.length_nonneg _)).symm
    _ = |(1 : ℝ)| := (sq_eq_sq_iff_abs_eq_abs _ _).mp e
    _ = 1 := abs_one

theorem raymarchWith_sceneSphere_eq (O : vec3) (hO : 1 < O.length) :
    raymarchWith sceneSphere O (O.normalise.scalarMul (-1)) = O.length - 1 := by
  unfold raymarchWith MAX_STEPS
  rw [raymarchRun_succ]
  have h0 : sceneSphere (O.addition ((O.normalise.scalarMul (-1)).scalarMul 0)) =
      O.length - 1 := by
    rw [vec3.addition_scalarMul_zero]
    rfl
  rw [h0, zero_add]
  split_ifs with hc
  · rfl
  · rw [raymarchRun_succ]
    have h1 : sceneSphere
        (O.addition ((O.normalise.scalarMul (-1)).scalarMul (O.length - 1))) = 0 := by
      unfold sceneSphere sdfSphere
      rw [length_ray_inward O (by linarith)]
      ring
    rw [h1, add_zero]
    have hS : (0 : ℝ) < SURFACE_DIST := by unfold SURFACE_DIST; norm_num
    rw [if_pos (Or.inr hS)]

/-- C8 (amended): over exact real arithmetic, with the unit sphere as the scene, for every
origin `O` with `|O| > 1` and the
direction `D = -O / |O|` (aimed at the centre), the march returns a value within `0.01`
of `|O| - 1`; over the reals it returns `|O| - 1` itself. -/
theorem raymarch_sphere_converges (O : vec3) (hO : 1 < O.length) :
    |raymarchWith sceneSphere O (O.normalise.scalarMul (-1)) - (O.length - 1)| ≤ 0.01 ∧
    raymarchWith sceneSphere O (O.normalise.scalarMul (-1)) = O.length - 1 := by
  have h := raymarchWith_sceneSphere_eq O hO
  refine ⟨?_, h⟩
  rw [h, sub_self, abs_zero]
  norm_num

theorem raymarch_sphere_converges_witness :
    1 < (vec3.mk 0 0 3).length ∧
    |raymarchWith sceneSphere ⟨0, 0, 3⟩ ((vec3.mk 0 0 3).normalise.scalarMul (-1)) -
      ((vec3.mk 0 0 3).length - 1)| ≤ 0.01 ∧
    raymarchWith sceneSphere ⟨0, 0, 3⟩ ((vec3.mk 0 0 3).normalise.scalarMul (-1)) =
      (vec3.mk 0 0 3).length - 1 :=
  have h : 1 < (vec3.mk 0 0 3).length := by
    unfold vec3.length
    apply Real.lt_sqrt_of_sq_lt
    norm_num
  ⟨h, raymarch_sphere_converges ⟨0, 0, 3⟩ h⟩


/-! ## Mandelbulb -/

theorem mandelbulbLoop_succ (pos : vec3) (power : ℝ) (n : Nat) (p : vec3) (dr r0 : ℝ) :
    mandelbulbLoop pos power (n + 1) p dr r0 =
      if p.length > 2 then (p.length, dr)
      else
        mandelbulbLoop pos power n
          (((vec3.mk
            (Real.sin (Real.arccos (p.z / p.length) * power) *
              Real.cos (atan2 p.y p.x * power))
            (Real.sin (Real.arccos (p.z / p.length) * power) *
              Real.sin (atan2 p.y p.x * power))
            (Real.cos (Real.arccos (p.z / p.length) * power))).scalarMul
              (Real.rpow p.length power)).addition pos)
          (Real.rpow p.length (power - 1) * power * dr + 1) p.length :=
  rfl

/-- Outside the escape radius the loop is left in its first iteration. -/
theorem sdfMandelbulb_of_escaped (P : vec3) (power : ℝ) (h : 2 < P.length) :
    sdfMandelbulb P power = 0.5 * Real.log P.length * P.length / 1 := by
  unfold sdfMandelbulb
  rw [mandelbulbLoop_succ, if_pos h]

/-- The point on the unit sphere with the polar angle `theta` and the azimuth `phi`. -/
theorem length_spherical (theta phi : ℝ) :
    (vec3.mk (Real.sin theta * Real.cos phi) (Real.sin theta * Real.sin phi)
      (Real.cos theta)).length = 1 := by
  unfold vec3.length
  have e : Real.sin theta * Real.cos phi * (Real.sin theta * Real.cos phi) +
      Real.sin theta * Real.sin phi * (Real.sin theta * Real.sin phi) +
      Real.cos theta * Real.cos theta = 1 := by
    nlinarith [Real.sin_sq_add_cos_sq theta, Real.sin_sq_add_cos_sq phi]
  simp only
  rw [e, Real.sqrt_one]

theorem vec3.length_scalarMul (v : vec3) (c : ℝ) : (v.scalarMul c).length = |c| * v.length := by
  unfold vec3.length
  simp only [vec3.scalarMul]
  have e : v.x * c * (v.x * c) + v.y * c * (v.y * c) + v.z * c * (v.z * c) =
      c ^ 2 * (v.x * v.x + v.y * v.y + v.z * v.z) := by ring
  rw [e, Real.sqrt_mul (sq_nonneg _), Real.sqrt_sq_eq_abs]

theorem vec3.length_addition_ge (a b : vec3) : a.length - b.length ≤ (a.addition b).length := by
  have h := vec3.length_addition_le (a.addition b) (b.scalarMul (-1))
  have e : (a.addition b).addition (b.scalarMul (-1)) = a := by
    cases a
    cases b
    simp [vec3.addition, vec3.scalarMul]
  rw [e, vec3.length_scalarMul] at h
  simp only [abs_neg, abs_one, one_mul] at h
  linarith

theorem four_le_rpow_two (power : ℝ) (hp : 2 ≤ power) : 4 ≤ Real.rpow 2 power := by
  have h := Real.rpow_le_rpow_of_exponent_le (by norm_num : (1 : ℝ) ≤ 2) hp
  have e : (2 : ℝ) ^ (2 : ℝ) = 4 := by
    rw [Real.rpow_two]
    norm_num
  rw [e] at h
  exact h

/-- While the query point is on the sphere of radius 2 (or inside) and the running point
has length at least 2, the loop keeps `r ≥ 2` and `dr ≥ 1`. -/
theorem mandelbulbLoop_bounds (pos : vec3) (power : ℝ) (hpos : pos.length ≤ 2)
    (hp : 2 ≤ power) :
    ∀ (n : Nat) (p : vec3) (dr r0 : ℝ), 2 ≤ p.length → 2 ≤ r0 → 1 ≤ dr →
      2 ≤ (mandelbulbLoop pos power n p dr r0).1 ∧
        1 ≤ (mandelbulbLoop pos power n p dr r0).2 := by
  intro n
  induction n with
  | zero =>
    intro p dr r0 _ hr hdr
    exact ⟨hr, hdr⟩
  | succ n ih =>
    intro p dr r0 hpl _ hdr
    rw [mandelbulbLoop_succ]
    split_ifs with hc
    · exact ⟨hpl, hdr⟩
    · have hr : p.length = 2 := le_antisymm (not_lt.mp hc) hpl
      apply ih
      · refine le_trans ?_ (vec3.length_addition_ge _ _)
        rw [vec3.length_scalarMul, length_spherical, mul_one, hr]
        have h4 := four_le_rpow_two power hp
        have := le_abs_self (Real.rpow 2 power)
        linarith
      · exact hpl
      · have h1 : 0 ≤ Real.rpow p.length (power - 1) :=
          Real.rpow_nonneg (vec3.length_nonneg p) _
        have h2 : 0 ≤ Real.rpow p.length (power - 1) * power * dr :=
          mul_nonneg (mul_nonneg h1 (by linarith)) (by linarith)
        linarith

/-- C9: for every power `≥ 2` and every point `P` with `|P| ≥ 2` (the boundary `|P| = 2`,
where the early exit `r > 2` does not fire, included), `sdfMandelbulb P power` is
non-negative. -/
theorem sdfMandelbulb_nonneg (P : vec3) (power : ℝ) (hp : 2 ≤ power)
    (hP : 2 ≤ P.length) : 0 ≤ sdfMandelbulb P power := by
  have key : 2 ≤ (mandelbulbLoop P power 5 P 1 0).1 ∧ 1 ≤ (mandelbulbLoop P power 5 P 1 0).2 := by
    rw [mandelbulbLoop_succ]
    split_ifs with hc
    · exact ⟨hP, le_rfl⟩
    · have hr : P.length = 2 := le_antisymm (not_lt.mp hc) hP
      apply mandelbulbLoop_bounds P power hr.le hp
      · refine le_trans ?_ (vec3.length_addition_ge _ _)
        rw [vec3.length_scalarMul, length_spherical, mul_one, hr]
        have h4 := four_le_rpow_two power hp
        have := le_abs_self (Real.rpow 2 power)
        linarith
      · exact hP
      · have h1 : 0 ≤ Real.rpow P.length (power - 1) :=
          Real.rpow_nonneg (vec3.length_nonneg P) _
        have h2 : 0 ≤ Real.rpow P.length (power - 1) * power * 1 :=
          mul_nonneg (mul_nonneg h1 (by linarith)) (by norm_num)
        linarith
  unfold sdfMandelbulb
  simp only
  obtain ⟨h1, h2⟩ := key
  have hlog : 0 ≤ Real.log (mandelbulbLoop P power 5 P 1 0).1 := Real.log_nonneg (by linarith)
  apply div_nonneg
  · apply mul_nonneg
    · apply mul_nonneg
      · norm_num
      · exact hlog
    · linarith
  · linarith

theorem sdfMandelbulb_nonneg_witness :
    (vec3.mk 2 0 0).length = 2 ∧ 0 ≤ sdfMandelbulb ⟨2, 0, 0⟩ 2 :=
  have h : (vec3.mk 2 0 0).length = 2 := by
    unfold vec3.length
    simp only [mul_zero, add_zero]
    exact Real.sqrt_mul_self (by norm_num)
  ⟨h, sdfMandelbulb_nonneg ⟨2, 0, 0⟩ 2 le_rfl h.ge⟩


/-! ## Mandelbulb: the estimate is not 1-Lipschitz -/

theorem length_xaxis (a : ℝ) (ha : 0 ≤ a) : (vec3.mk a 0 0).length = a := by
  unfold vec3.length
  simp only [mul_zero, add_zero]
  exact Real.sqrt_mul_self ha

/-- The function `r ↦ r * log r` between two radii `1 ≤ t ≤ s ≤ e`. -/
theorem mul_log_sub_bounds (s t : ℝ) (ht : 1 ≤ t) (hts : t ≤ s) (hs : s ≤ Real.exp 1) :
    0 ≤ s * Real.log s - t * Real.log t ∧
      s * Real.log s - t * Real.log t ≤ 2 * (s - t) := by
  have ht0 : 0 < t := by linarith
  have hs0 : 0 < s := by linarith
  have hlt : 0 ≤ Real.log t := Real.log_nonneg ht
  have hls : Real.log t ≤ Real.log s := Real.log_le_log ht0 hts
  have hls1 : Real.log s ≤ 1 := by
    have := Real.log_le_log hs0 hs
    rwa [Real.log_exp] at this
  have hdiv : Real.log s - Real.log t ≤ s / t - 1 := by
    rw [← Real.log_div (ne_of_gt hs0) (ne_of_gt ht0)]
    exact Real.log_le_sub_one_of_pos (div_pos hs0 ht0)
  have hmul : t * (Real.log s - Real.log t) ≤ s - t := by
    have := mul_le_mul_of_nonneg_left hdiv ht0.le
    have e : t * (s / t - 1) = s - t := by
      field_simp
    linarith
  constructor
  · nlinarith
  · nlinarith

theorem sdfMandelbulb_shell_aux (P Q : vec3) (power : ℝ)
    (hP : 2 < P.length) (hQ : 2 < Q.length) (hQe : Q.length ≤ Real.exp 1)
    (hPQ : P.length ≤ Q.length) :
    |sdfMandelbulb P power - sdfMandelbulb Q power| ≤ (P.subtraction Q).length := by
  rw [sdfMandelbulb_of_escaped P power hP, sdfMandelbulb_of_escaped Q power hQ]
  obtain ⟨h1, h2⟩ := mul_log_sub_bounds Q.length P.length (by linarith) hPQ hQe
  have h3 := vec3.length_sub_length_le Q P
  have h4 : (Q.subtraction P).length = (P.subtraction Q).length := by
    unfold vec3.length
    simp only [vec3.subtraction]
    congr 1
    ring
  rw [h4] at h3
  rw [abs_le]
  constructor <;> linarith

theorem atan2_zero_of_nonneg (x : ℝ) (hx : 0 ≤ x) : atan2 0 x = 0 := by
  unfold atan2
  have : (⟨x, 0⟩ : ℂ) = ((x : ℝ) : ℂ) := rfl
  rw [this]
  exact Complex.arg_ofReal_of_nonneg hx

theorem length_zaxis_abs (a : ℝ) : (vec3.mk 0 0 a).length = |a| := by
  unfold vec3.length
  simp only [mul_zero, zero_add]
  exact Real.sqrt_mul_self_eq_abs a

/-- One iteration of the loop at a point `(0, 0, a)` of the positive z-axis inside the
escape radius, for the power 2: the next point is `(0, 0, a² + a₀)`, where `(0, 0, a₀)` is
the query point, and `dr` becomes `2 a dr + 1`. -/
theorem mandelbulbLoop_zaxis (a0 a dr r0 : ℝ) (n : Nat) (ha : 0 < a) (ha2 : a ≤ 2) :
    mandelbulbLoop ⟨0, 0, a0⟩ 2 (n + 1) ⟨0, 0, a⟩ dr r0 =
      mandelbulbLoop ⟨0, 0, a0⟩ 2 n ⟨0, 0, a ^ 2 + a0⟩ (2 * a * dr + 1) a := by
  have hl : (vec3.mk 0 0 a).length = a := by
    rw [length_zaxis_abs, abs_of_pos ha]
  rw [mandelbulbLoop_succ, hl, if_neg (not_lt.mpr ha2)]
  have h1 : Real.arccos (a / a) = 0 := by
    rw [div_self (ne_of_gt ha), Real.arccos_one]
  have h2 : atan2 0 0 = 0 := atan2_zero_of_nonneg 0 le_rfl
  have h3 : Real.rpow a (2 - 1) = a := by
    have : (2 : ℝ) - 1 = 1 := by norm_num
    rw [this]
    exact Real.rpow_one a
  have h4 : Real.rpow a 2 = a ^ 2 := Real.rpow_two a
  simp only [h1, h2, h3, h4, zero_mul, Real.sin_zero, Real.cos_zero, vec3.scalarMul,
    vec3.addition, one_mul, zero_add, mul_one]
  congr 1
  ring

theorem mandelbulbLoop_escaped (pos p : vec3) (power dr r0 : ℝ) (n : Nat) (h : 2 < p.length) :
    mandelbulbLoop pos power (n + 1) p dr r0 = (p.length, dr) := by
  rw [mandelbulbLoop_succ, if_pos h]

/-- At the point `(0, 0, 1)`, power 2: two iterations, then `r = 5` and `dr = 13`. -/
theorem sdfMandelbulb_zaxis_one : sdfMandelbulb ⟨0, 0, 1⟩ 2 = 0.5 * Real.log 5 * 5 / 13 := by
  unfold sdfMandelbulb
  rw [mandelbulbLoop_zaxis 1 1 1 0 4 (by norm_num) (by norm_num)]
  have e1 : (1 : ℝ) ^ 2 + 1 = 2 := by norm_num
  have e2 : (2 : ℝ) * 1 * 1 + 1 = 3 := by norm_num
  rw [e1, e2, mandelbulbLoop_zaxis 1 2 3 1 3 (by norm_num) (by norm_num)]
  have e3 : (2 : ℝ) ^ 2 + 1 = 5 := by norm_num
  have e4 : (2 : ℝ) * 2 * 3 + 1 = 13 := by norm_num
  have hl : (vec3.mk 0 0 5).length = 5 := by
    rw [length_zaxis_abs, abs_of_pos (by norm_num)]
  rw [e3, e4, mandelbulbLoop_escaped _ _ _ _ _ _ (by rw [hl]; norm_num), hl]

/-- At the point `(0, 0, 1.01)`, power 2: one iteration, then `r = 2.0301` and
`dr = 3.02`. -/
theorem sdfMandelbulb_zaxis_next :
    sdfMandelbulb ⟨0, 0, 1.01⟩ 2 = 0.5 * Real.log 2.0301 * 2.0301 / 3.02 := by
  unfold sdfMandelbulb
  rw [mandelbulbLoop_zaxis 1.01 1.01 1 0 4 (by norm_num) (by norm_num)]
  have e1 : (1.01 : ℝ) ^ 2 + 1.01 = 2.0301 := by norm_num
  have e2 : (2 : ℝ) * 1.01 * 1 + 1 = 3.02 := by norm_num
  have hl : (vec3.mk 0 0 2.0301).length = 2.0301 := by
    rw [length_zaxis_abs, abs_of_pos (by norm_num)]
  rw [e1, e2, mandelbulbLoop_escaped _ _ _ _ _ _ (by rw [hl]; norm_num), hl]

/-- At the point `(2, 0, 0)` on the sphere of the escape radius, power 2: one iteration,
then `r = sqrt 20` and `dr = 5`. -/
theorem sdfMandelbulb_on_radius :
    sdfMandelbulb ⟨2, 0, 0⟩ 2 = 0.5 * Real.log (Real.sqrt 20) * Real.sqrt 20 / 5 := by
  unfold sdfMandelbulb
  have hl : (vec3.mk 2 0 0).length = 2 := length_xaxis 2 (by norm_num)
  rw [mandelbulbLoop_succ, hl, if_neg (lt_irrefl 2)]
  have h1 : Real.arccos (0 / 2) = Real.pi / 2 := by
    rw [zero_div, Real.arccos_zero]
  have h2 : atan2 0 2 = 0 := atan2_zero_of_nonneg 2 (by norm_num)
  have h3 : Real.rpow 2 (2 - 1) = 2 := by
    have : (2 : ℝ) - 1 = 1 := by norm_num
    rw [this]
    exact Real.rpow_one 2
  have h4 : Real.rpow 2 2 = 4 := by
    have h : Real.rpow 2 2 = (2 : ℝ) ^ 2 := Real.rpow_two 2
    rw [h]
    norm_num
  have h5 : Real.pi / 2 * 2 = Real.pi := by ring
  have hp : ((vec3.mk (Real.sin (Real.arccos (0 / 2) * 2) * Real.cos (atan2 0 2 * 2))
      (Real.sin (Real.arccos (0 / 2) * 2) * Real.sin (atan2 0 2 * 2))
      (Real.cos (Real.arccos (0 / 2) * 2))).scalarMul (Real.rpow 2 2)).addition ⟨2, 0, 0⟩ =
      ⟨2, 0, -4⟩ := by
    simp only [h1, h2, h4, h5, Real.sin_pi, Real.cos_pi, zero_mul, vec3.scalarMul,
      vec3.addition]
    congr 1 <;> norm_num
  have hl2 : (vec3.mk 2 0 (-4)).length = Real.sqrt 20 := by
    unfold vec3.length
    congr 1
    norm_num
  have h20 : 2 < Real.sqrt 20 := by
    apply Real.lt_sqrt_of_sq_lt
    norm_num
  simp only
  rw [hp, h3, mandelbulbLoop_escaped _ _ _ _ _ _ (by rw [hl2]; exact h20), hl2]
  norm_num

theorem length_sub_xaxis (a b : ℝ) (h : a ≤ b) :
    ((vec3.mk a 0 0).subtraction ⟨b, 0, 0⟩).length = b - a := by
  unfold vec3.length
  simp only [vec3.subtraction, sub_self, mul_zero, add_zero]
  rw [show (a - b) * (a - b) = (b - a) * (b - a) by ring]
  exact Real.sqrt_mul_self (by linarith)

theorem length_sub_zaxis (a b : ℝ) (h : a ≤ b) :
    ((vec3.mk 0 0 a).subtraction ⟨0, 0, b⟩).length = b - a := by
  unfold vec3.length
  simp only [vec3.subtraction, sub_self, mul_zero, zero_add]
  rw [show (a - b) * (a - b) = (b - a) * (b - a) by ring]
  exact Real.sqrt_mul_self (by linarith)

/-- The function `r ↦ r * log r` has slope above 2 beyond the radius `e`. -/
theorem mul_log_sub_gt (s t : ℝ) (ht : Real.exp 1 ≤ t) (hts : t < s) :
    2 * (s - t) < s * Real.log s - t * Real.log t := by
  have he : 0 < Real.exp 1 := Real.exp_pos 1
  have ht0 : 0 < t := by linarith
  have hs0 : 0 < s := by linarith
  have hlt : 1 ≤ Real.log t := by
    have := Real.log_le_log he ht
    rwa [Real.log_exp] at this
  have hne : t / s ≠ 1 := by
    intro h
    rw [div_eq_one_iff_eq (ne_of_gt hs0)] at h
    linarith
  have hdiv : Real.log t - Real.log s < t / s - 1 := by
    rw [← Real.log_div (ne_of_gt ht0) (ne_of_gt hs0)]
    exact Real.log_lt_sub_one_of_pos (div_pos ht0 hs0) hne
  have hmul : s * (Real.log t - Real.log s) < t - s := by
    have := mul_lt_mul_of_pos_left hdiv hs0
    have e : s * (t / s - 1) = t - s := by
      field_simp
    linarith
  nlinarith

/-- Across the escape radius: the values at `(2, 0, 0)` and `(2.01, 0, 0)`, power 2. -/
theorem sdfMandelbulb_across_radius :
    sdfMandelbulb ⟨2, 0, 0⟩ 2 < 676 / 1000 ∧ 696 / 1000 < sdfMandelbulb ⟨201 / 100, 0, 0⟩ 2 := by
  have hQl : (vec3.mk (201 / 100) 0 0).length = 201 / 100 := length_xaxis _ (by norm_num)
  rw [sdfMandelbulb_on_radius, sdfMandelbulb_of_escaped _ _ (by rw [hQl]; norm_num), hQl]
  have h2 := Real.log_two_gt_d9
  have h2u := Real.log_two_lt_d9
  have hs0 : 0 ≤ Real.sqrt 20 := Real.sqrt_nonneg 20
  have hs : Real.sqrt 20 ≤ 44722 / 10000 := by
    rw [Real.sqrt_le_iff]
    constructor <;> norm_num
  have hl : Real.log (Real.sqrt 20) = Real.log 20 / 2 := Real.log_sqrt (by norm_num)
  have h20 : Real.log 20 = 4 * Real.log 2 + Real.log (5 / 4) := by
    have e : (20 : ℝ) = 2 ^ 4 * (5 / 4) := by norm_num
    rw [e, Real.log_mul (by norm_num) (by norm_num), Real.log_pow]
    norm_num
  have h54 : Real.log (5 / 4) ≤ 1 / 4 := by
    have := Real.log_le_sub_one_of_pos (show (0 : ℝ) < 5 / 4 by norm_num)
    linarith
  have h54n : 0 ≤ Real.log (5 / 4) := Real.log_nonneg (by norm_num)
  have hL0 : 0 ≤ Real.log (Real.sqrt 20) := by
    rw [hl, h20]
    linarith
  have hL : Real.log (Real.sqrt 20) ≤ 15114 / 10000 := by
    rw [hl, h20]
    norm_num at h2u ⊢
    linarith
  have hprod : Real.log (Real.sqrt 20) * Real.sqrt 20 ≤ 15114 / 10000 * (44722 / 10000) :=
    mul_le_mul hL hs hs0 (by norm_num)
  have hq : Real.log 2 ≤ Real.log (201 / 100) := Real.log_le_log (by norm_num) (by norm_num)
  constructor
  · norm_num at hprod ⊢
    linarith
  · norm_num at h2 ⊢
    linarith

/-- Inside the escape radius: the values at `(0, 0, 1)` and `(0, 0, 1.01)`, power 2. -/
theorem sdfMandelbulb_inside_radius :
    266 / 1000 < sdfMandelbulb ⟨0, 0, 1⟩ 2 ∧ sdfMandelbulb ⟨0, 0, 1.01⟩ 2 < 239 / 1000 := by
  rw [sdfMandelbulb_zaxis_one, sdfMandelbulb_zaxis_next]
  have h2 := Real.log_two_gt_d9
  have h2u := Real.log_two_lt_d9
  have h5 : 2 * Real.log 2 ≤ Real.log 5 := by
    have e : (2 : ℝ) * Real.log 2 = Real.log (2 ^ 2) := by
      rw [Real.log_pow]
      norm_num
    rw [e]
    exact Real.log_le_log (by norm_num) (by norm_num)
  have hq : Real.log 2.0301 ≤ Real.log 2 + 301 / 20000 := by
    have h := Real.log_le_sub_one_of_pos (show (0 : ℝ) < 2.0301 / 2 by norm_num)
    rw [Real.log_div (by norm_num) (by norm_num)] at h
    norm_num at h ⊢
    linarith
  constructor
  · norm_num at h2 ⊢
    linarith
  · norm_num at h2u hq ⊢
    linarith

/-- C10 (as stated, refuted): the estimate is not 1-Lipschitz, at the power 2, in each
of the three regions. Far outside the escape radius: at `P = (10, 0, 0)` and
`Q = (20, 0, 0)`, at distance 10, the values differ by more than 10. Across the escape
radius: at `P = (2, 0, 0)` (one iteration, `r = sqrt 20`, `dr = 5`) and
`Q = (2.01, 0, 0)` (no iteration), at distance 0.01, the values differ by more than 0.02.
Inside the escape radius: at `P = (0, 0, 1)` (two iterations, `r = 5`, `dr = 13`) and
`Q = (0, 0, 1.01)` (one iteration, `r = 2.0301`, `dr = 3.02`), at distance 0.01, the
values differ by more than 0.027. And beyond the radius `e` the bound fails for every
power and every two different points of the positive x-axis. -/
theorem sdfMandelbulb_not_one_lipschitz :
    (vec3.mk 10 0 0) ≠ ⟨0, 0, 0⟩ ∧ (vec3.mk 20 0 0) ≠ ⟨0, 0, 0⟩ ∧
    ((vec3.mk 10 0 0).subtraction ⟨20, 0, 0⟩).length = 10 ∧
    ¬ |sdfMandelbulb ⟨10, 0, 0⟩ 2 - sdfMandelbulb ⟨20, 0, 0⟩ 2| ≤
        ((vec3.mk 10 0 0).subtraction ⟨20, 0, 0⟩).length ∧
    (vec3.mk 2 0 0).length = 2 ∧
    ((vec3.mk 2 0 0).subtraction ⟨201 / 100, 0, 0⟩).length = 1 / 100 ∧
    ¬ |sdfMandelbulb ⟨2, 0, 0⟩ 2 - sdfMandelbulb ⟨201 / 100, 0, 0⟩ 2| ≤
        ((vec3.mk 2 0 0).subtraction ⟨201 / 100, 0, 0⟩).length ∧
    (vec3.mk 0 0 1).length = 1 ∧
    ((vec3.mk 0 0 1).subtraction ⟨0, 0, 1.01⟩).length = 1 / 100 ∧
    ¬ |sdfMandelbulb ⟨0, 0, 1⟩ 2 - sdfMandelbulb ⟨0, 0, 1.01⟩ 2| ≤
        ((vec3.mk 0 0 1).subtraction ⟨0, 0, 1.01⟩).length ∧
    (∀ power s t : ℝ, Real.exp 1 ≤ t → t < s →
      ¬ |sdfMandelbulb ⟨s, 0, 0⟩ power - sdfMandelbulb ⟨t, 0, 0⟩ power| ≤
        ((vec3.mk s 0 0).subtraction ⟨t, 0, 0⟩).length) := by
  have hd : ((vec3.mk 10 0 0).subtraction ⟨20, 0, 0⟩).length = 10 := by
    rw [length_sub_xaxis 10 20 (by norm_num)]
    norm_num
  have hP : (vec3.mk 10 0 0).length = 10 := length_xaxis 10 (by norm_num)
  have hQ : (vec3.mk 20 0 0).length = 20 := length_xaxis 20 (by norm_num)
  have hd2 : ((vec3.mk 2 0 0).subtraction ⟨201 / 100, 0, 0⟩).length = 1 / 100 := by
    rw [length_sub_xaxis 2 (201 / 100) (by norm_num)]
    norm_num
  have hd3 : ((vec3.mk 0 0 1).subtraction ⟨0, 0, 1.01⟩).length = 1 / 100 := by
    rw [length_sub_zaxis 1 1.01 (by norm_num)]
    norm_num
  refine ⟨?_, ?_, hd, ?_, length_xaxis 2 (by norm_num), hd2, ?_, ?_, hd3, ?_, ?_⟩
  · intro h
    have := congrArg vec3.x h
    norm_num at this
  · intro h
    have := congrArg vec3.x h
    norm_num at this
  · rw [hd, sdfMandelbulb_of_escaped _ _ (by rw [hP]; norm_num),
      sdfMandelbulb_of_escaped _ _ (by rw [hQ]; norm_num), hP, hQ]
    have h2 := Real.log_two_gt_d9
    have h10 : Real.log 2 ≤ Real.log 10 := Real.log_le_log (by norm_num) (by norm_num)
    have h20 : Real.log 20 = Real.log 2 + Real.log 10 := by
      rw [← Real.log_mul (by norm_num) (by norm_num)]
      norm_num
    rw [h20]
    intro h
    have := (abs_le.mp h).1
    norm_num at this h2
    linarith
  · rw [hd2]
    obtain ⟨h1, h2⟩ := sdfMandelbulb_across_radius
    intro h
    have := (abs_le.mp h).1
    linarith
  · rw [length_zaxis_abs, abs_one]
  · rw [hd3]
    obtain ⟨h1, h2⟩ := sdfMandelbulb_inside_radius
    intro h
    have := (abs_le.mp h).2
    linarith
  · intro power s t ht hts h
    have he := Real.exp_one_gt_d9
    have ht2 : 2 < t := by linarith
    have ls : (vec3.mk s 0 0).length = s := length_xaxis s (by linarith)
    have lt : (vec3.mk t 0 0).length = t := length_xaxis t (by linarith)
    have hd4 : ((vec3.mk s 0 0).subtraction ⟨t, 0, 0⟩).length = s - t := by
      unfold vec3.length
      simp only [vec3.subtraction, sub_self, mul_zero, add_zero]
      exact Real.sqrt_mul_self (by linarith)
    rw [hd4, sdfMandelbulb_of_escaped _ _ (by rw [ls]; linarith),
      sdfMandelbulb_of_escaped _ _ (by rw [lt]; exact ht2), ls, lt] at h
    have h5 := mul_log_sub_gt s t ht hts
    have := (abs_le.mp h).2
    linarith

/-- C10 (amended): over exact real arithmetic, outside the escape radius and up to the
radius `e = exp 1` the mandelbulb estimate is 1-Lipschitz, for every power: for all points
`P`, `Q` with `2 < |P| ≤ e` and `2 < |Q| ≤ e`,
`|sdfMandelbulb P power - sdfMandelbulb Q power|` is at most `|P - Q|`. There the loop is
left in its first pass with `r = |P|` and `dr = 1`, before any iteration of the map, and
the value is `0.5 * log |P| * |P|`. -/
theorem sdfMandelbulb_shell_lipschitz (P Q : vec3) (power : ℝ)
    (hP : 2 < P.length) (hPe : P.length ≤ Real.exp 1)
    (hQ : 2 < Q.length) (hQe : Q.length ≤ Real.exp 1) :
    mandelbulbLoop P power 5 P 1 0 = (P.length, 1) ∧
    sdfMandelbulb P power = 0.5 * Real.log P.length * P.length / 1 ∧
    |sdfMandelbulb P power - sdfMandelbulb Q power| ≤ (P.subtraction Q).length := by
  refine ⟨by rw [mandelbulbLoop_succ, if_pos hP], sdfMandelbulb_of_escaped P power hP, ?_⟩
  rcases le_total P.length Q.length with h | h
  · exact sdfMandelbulb_shell_aux P Q power hP hQ hQe h
  · have h1 := sdfMandelbulb_shell_aux Q P power hQ hP hPe h
    have h4 : (Q.subtraction P).length = (P.subtraction Q).length := by
      unfold vec3.length
      simp only [vec3.subtraction]
      congr 1
      ring
    rw [abs_sub_comm, ← h4]
    exact h1

theorem sdfMandelbulb_shell_lipschitz_witness :
    mandelbulbLoop ⟨5 / 2, 0, 0⟩ 8 5 ⟨5 / 2, 0, 0⟩ 1 0 = ((vec3.mk (5 / 2) 0 0).length, 1) ∧
    sdfMandelbulb ⟨5 / 2, 0, 0⟩ 8 =
      0.5 * Real.log (vec3.mk (5 / 2) 0 0).length * (vec3.mk (5 / 2) 0 0).length / 1 ∧
    |sdfMandelbulb ⟨5 / 2, 0, 0⟩ 8 - sdfMandelbulb ⟨0, 0, -21 / 10⟩ 8| ≤
      ((vec3.mk (5 / 2) 0 0).subtraction ⟨0, 0, -21 / 10⟩).length :=
  have hP : (vec3.mk (5 / 2) 0 0).length = 5 / 2 := length_xaxis _ (by norm_num)
  have hQ : (vec3.mk 0 0 (-21 / 10)).length = 21 / 10 := by
    unfold vec3.length
    simp only [mul_zero, zero_add]
    rw [show (-21 / 10 : ℝ) * (-21 / 10) = 21 / 10 * (21 / 10) by norm_num]
    exact Real.sqrt_mul_self (by norm_num)
  have he := Real.exp_one_gt_d9
  sdfMandelbulb_shell_lipschitz ⟨5 / 2, 0, 0⟩ ⟨0, 0, -21 / 10⟩ 8
    (by rw [hP]; norm_num) (by rw [hP]; norm_num at he ⊢; linarith)
    (by rw [hQ]; norm_num) (by rw [hQ]; norm_num at he ⊢; linarith)


/-! ## Normalisation -/

/-- C11: for every `vec3` `v` with length `> 0`, `v.normalise` has Euclidean length
exactly `1` and is `v` scaled by the positive factor `1 / |v|`. -/
theorem normalise_length_one (v : vec3) (hv : 0 < v.length) :
    v.normalise.length = 1 ∧ v.normalise = v.scalarMul (1 / v.length) ∧ 0 < 1 / v.length := by
  have hs : v.normalise = v.scalarMul (1 / v.length) := by
    unfold vec3.normalise vec3.scalarMul
    simp only [mul_one_div]
  refine ⟨?_, hs, one_div_pos.mpr hv⟩
  rw [hs, vec3.length_scalarMul, abs_of_pos (one_div_pos.mpr hv)]
  exact one_div_mul_cancel (ne_of_gt hv)

theorem normalise_length_one_witness :
    0 < (vec3.mk 3 0 4).length ∧ (vec3.mk 3 0 4).normalise.length = 1 ∧
    (vec3.mk 3 0 4).normalise = (vec3.mk 3 0 4).scalarMul (1 / (vec3.mk 3 0 4).length) ∧
    0 < 1 / (vec3.mk 3 0 4).length :=
  have h : 0 < (vec3.mk 3 0 4).length := by
    unfold vec3.length
    apply Real.sqrt_pos.mpr
    norm_num
  ⟨h, normalise_length_one ⟨3, 0, 4⟩ h⟩

/-! ## The frame is hollow -/

theorem length_yaxis (a : ℝ) (ha : 0 ≤ a) : (vec3.mk 0 a 0).length = a := by
  unfold vec3.length
  simp only [mul_zero, zero_add, add_zero]
  exact Real.sqrt_mul_self ha

/-- The box distance of a point whose second coordinate is the largest, the other two
being non-positive. -/
theorem boxDist_eq_y (x y z : ℝ) (hx : x ≤ 0) (hz : z ≤ 0) (hxy : x ≤ y) (hzy : z ≤ y) :
    boxDist x y z = y := by
  have hm : max x (max y z) = y := by
    rw [max_eq_left hzy, max_eq_right hxy]
  by_cases hy : 0 ≤ y
  · rw [boxDist_of_nonneg (by rw [hm]; exact hy), max_eq_right hx, max_eq_right hz,
      max_eq_left hy, length_yaxis y hy]
  · push_neg at hy
    rw [boxDist_of_neg (by rw [hm]; exact hy), hm]

/-- The box distance of a point whose first coordinate is the largest, the other two
being non-positive. -/
theorem boxDist_eq_x (x y z : ℝ) (hy : y ≤ 0) (hz : z ≤ 0) (hyx : y ≤ x) (hzx : z ≤ x) :
    boxDist x y z = x := by
  have hm : max x (max y z) = x := by
    rw [max_eq_left (max_le hyx hzx)]
  by_cases hx : 0 ≤ x
  · rw [boxDist_of_nonneg (by rw [hm]; exact hx), max_eq_right hy, max_eq_right hz,
      max_eq_left hx, length_xaxis x hx]
  · push_neg at hx
    rw [boxDist_of_neg (by rw [hm]; exact hx), hm]

/-- The bound `1 - 2 e` is attained on the axis, at the height `0.9` of the bars. -/
theorem sdfBoxFrame_zaxis_eq (e : ℝ) (he0 : 1 / 10 ≤ e) (he1 : e ≤ 1 / 2) :
    sdfBoxFrame ⟨0, 0, 0.9⟩ ⟨1, 1, 1⟩ e = 1 - 2 * e := by
  rw [sdfBoxFrame_eq]
  simp only
  have e1 : |(|(0 : ℝ)| - 1 + e)| - e = 1 - 2 * e := by
    rw [abs_zero, abs_of_nonpos (by linarith)]
    ring
  have p0 : |(0 : ℝ)| - 1 = -1 := by norm_num
  have p9 : |(0.9 : ℝ)| - 1 = -(1 / 10) := by norm_num [abs_of_pos]
  have e9 : |(-(1 / 10) + e)| - e = -(1 / 10) := by
    rw [abs_of_nonneg (by linarith)]
    ring
  rw [e1, p0, p9, e9]
  have d1 : boxDist (-1) (1 - 2 * e) (-(1 / 10)) = 1 - 2 * e :=
    boxDist_eq_y _ _ _ (by norm_num) (by norm_num) (by linarith) (by linarith)
  have d2 : boxDist (1 - 2 * e) (-1) (-(1 / 10)) = 1 - 2 * e :=
    boxDist_eq_x _ _ _ (by norm_num) (by norm_num) (by linarith) (by linarith)
  have d3 := boxDist_ge_x (1 - 2 * e) (1 - 2 * e) (-(1 / 10))
  rw [d1, d2, min_self, min_eq_left d3]

/-- C16 (as stated, refuted): the bar thickness of the source is `0.1f`, a little more
than `0.1`. Over the reals, at the point `(0, 0, 0.9)` of the z-axis the scene value is
`1 - 2 * 0.1f = 53687091 / 2^26 = 0.79999999702…`, which is below `0.8`. In the `float`
arithmetic of the source, at the point `(0, 0, 0.9f)` the scene value is
`3355443 / 2^22 = 0.79999995…`, below `0.8` as well. -/
theorem scene_zaxis_below_four_fifths :
    scene ⟨0, 0, 0.9⟩ = 53687091 / 67108864 ∧ ¬ (0.8 ≤ scene ⟨0, 0, 0.9⟩) ∧
    sceneF ⟨Fl.zero, Fl.zero, Fl.lit binary32 9 10⟩ = Fl.dyadic false 3355443 (-22) ∧
    ¬ (0.8 ≤ (Fl.dyadic false 3355443 (-22)).toReal) := by
  have h : scene ⟨0, 0, 0.9⟩ = 53687091 / 67108864 := by
    have h1 := sdfBoxFrame_zaxis_eq (13421773 / 134217728) (by norm_num) (by norm_num)
    have e : (1 : ℝ) - 2 * (13421773 / 134217728) = 53687091 / 67108864 := by norm_num
    rw [e] at h1
    exact h1
  refine ⟨h, ?_, by decide!, ?_⟩
  · rw [h]
    norm_num
  · rw [Fl.toReal_dyadic _ _ _ (by norm_num)]
    norm_num

/-- C16 (amended): over exact real arithmetic, with half-extents `(1, 1, 1)` and the bar
thickness `0.1f` of the source, for every real `z` the value `scene (0, 0, z)` is at least
`1 - 2 * 0.1f = 53687091 / 2^26 = 0.79999999702…` (a value that is attained), and so it is
positive: no point of the z-axis is on or inside the frame. -/
theorem scene_zaxis_hollow (z : ℝ) :
    53687091 / 67108864 ≤ scene ⟨0, 0, z⟩ ∧ 0 < scene ⟨0, 0, z⟩ ∧
    799999997 / 1000000000 ≤ scene ⟨0, 0, z⟩ := by
  have h := scene_zaxis_ge z
  refine ⟨h, ?_, ?_⟩
  · exact lt_of_lt_of_le (by norm_num) h
  · exact le_trans (by norm_num) h

/-! ## Mandelbulb along a radius -/

/-- The length of a stretched unit vector. -/
theorem length_scalarMul_unit (u : vec3) (s : ℝ) (hu : u.length = 1) (hs : 0 ≤ s) :
    (u.scalarMul s).length = s := by
  rw [vec3.length_scalarMul, hu, mul_one, abs_of_nonneg hs]

/-- C17 (amended): over exact real arithmetic, outside the escape radius the mandelbulb
estimate grows strictly with the radius
along a radial path. For every power (in particular every power `≥ 2`), every unit vector `u` and all radii
`2 < s < t`, `sdfMandelbulb (s*u) power < sdfMandelbulb (t*u) power`; there the loop is
left with zero completed iterations and the value is `0.5 * ln |P| * |P|`, whatever the
power. -/
theorem sdfMandelbulb_radial_strictMono (power : ℝ) (u : vec3) (s t : ℝ)
    (hu : u.length = 1) (hs : 2 < s) (hst : s < t) :
    sdfMandelbulb (u.scalarMul s) power < sdfMandelbulb (u.scalarMul t) power ∧
    sdfMandelbulb (u.scalarMul s) power = 0.5 * (u.scalarMul s).length *
      Real.log (u.scalarMul s).length ∧
    mandelbulbLoop (u.scalarMul s) power 5 (u.scalarMul s) 1 0 = ((u.scalarMul s).length, 1) ∧
    ∀ power2 : ℝ, sdfMandelbulb (u.scalarMul s) power2 = sdfMandelbulb (u.scalarMul s) power := by
  have ls : (u.scalarMul s).length = s := length_scalarMul_unit u s hu (by linarith)
  have lt : (u.scalarMul t).length = t := length_scalarMul_unit u t hu (by linarith)
  have es : ∀ q : ℝ, sdfMandelbulb (u.scalarMul s) q = 0.5 * Real.log s * s / 1 := by
    intro q
    rw [sdfMandelbulb_of_escaped _ _ (by rw [ls]; exact hs), ls]
  have et : sdfMandelbulb (u.scalarMul t) power = 0.5 * Real.log t * t / 1 := by
    rw [sdfMandelbulb_of_escaped _ _ (by rw [lt]; linarith), lt]
  refine ⟨?_, ?_, ?_, ?_⟩
  · rw [es, et]
    have h1 : Real.log s < Real.log t := Real.log_lt_log (by linarith) hst
    have h2 : 0 < Real.log s := Real.log_pos (by linarith)
    have h3 : Real.log s * s < Real.log t * t := by nlinarith
    linarith
  · rw [es, ls]
    ring
  · rw [mandelbulbLoop_succ, if_pos (by rw [ls]; exact hs)]
  · intro q
    rw [es, es]

theorem sdfMandelbulb_radial_strictMono_witness :
    sdfMandelbulb ((vec3.mk 0 1 0).scalarMul 3) 8 < sdfMandelbulb ((vec3.mk 0 1 0).scalarMul 4) 8 ∧
    sdfMandelbulb ((vec3.mk 0 1 0).scalarMul 3) 8 = 0.5 * ((vec3.mk 0 1 0).scalarMul 3).length *
      Real.log ((vec3.mk 0 1 0).scalarMul 3).length ∧
    mandelbulbLoop ((vec3.mk 0 1 0).scalarMul 3) 8 5 ((vec3.mk 0 1 0).scalarMul 3) 1 0 =
      (((vec3.mk 0 1 0).scalarMul 3).length, 1) ∧
    ∀ power2 : ℝ, sdfMandelbulb ((vec3.mk 0 1 0).scalarMul 3) power2 =
      sdfMandelbulb ((vec3.mk 0 1 0).scalarMul 3) 8 :=
  sdfMandelbulb_radial_strictMono 8 ⟨0, 1, 0⟩ 3 4 (by simp [vec3.length])
    (by norm_num) (by norm_num)


/-! ## The frame lies inside the solid box -/

/-- The length is monotone in the absolute values of the components. -/
theorem vec3.length_le_length (u v : vec3) (hx : |u.x| ≤ |v.x|) (hy : |u.y| ≤ |v.y|)
    (hz : |u.z| ≤ |v.z|) : u.length ≤ v.length := by
  unfold vec3.length
  apply Real.sqrt_le_sqrt
  have h1 := sq_le_sq.mpr hx
  have h2 := sq_le_sq.mpr hy
  have h3 := sq_le_sq.mpr hz
  nlinarith

/-- The box distance is monotone in each coordinate. -/
theorem boxDist_mono (a1 a2 a3 b1 b2 b3 : ℝ) (h1 : a1 ≤ b1) (h2 : a2 ≤ b2) (h3 : a3 ≤ b3) :
    boxDist a1 a2 a3 ≤ boxDist b1 b2 b3 := by
  have hmax : max a1 (max a2 a3) ≤ max b1 (max b2 b3) :=
    max_le_max h1 (max_le_max h2 h3)
  by_cases hb : 0 ≤ max b1 (max b2 b3)
  · rw [boxDist_of_nonneg hb]
    have hle : boxDist a1 a2 a3 ≤ (vec3.mk (max a1 0) (max a2 0) (max a3 0)).length := by
      unfold boxDist
      have := min_le_right (max a1 (max a2 a3)) 0
      linarith
    refine le_trans hle (vec3.length_le_length _ _ ?_ ?_ ?_)
    · simp only
      rw [abs_of_nonneg (le_max_right _ _), abs_of_nonneg (le_max_right _ _)]
      exact max_le_max h1 le_rfl
    · simp only
      rw [abs_of_nonneg (le_max_right _ _), abs_of_nonneg (le_max_right _ _)]
      exact max_le_max h2 le_rfl
    · simp only
      rw [abs_of_nonneg (le_max_right _ _), abs_of_nonneg (le_max_right _ _)]
      exact max_le_max h3 le_rfl
  · push_neg at hb
    rw [boxDist_of_neg hb, boxDist_of_neg (lt_of_le_of_lt hmax hb)]
    exact hmax

/-- C18 (amended): over exact real arithmetic, the frame field is never smaller than the
field of the solid box with the same
half-extents: for all `P`, `b` and `e`, `sdfBoxFrame P b e ≥ sdfRoundedCube P b 0`. -/
theorem sdfBoxFrame_ge_sdfRoundedCube (P b : vec3) (e : ℝ) :
    sdfRoundedCube P b 0 ≤ sdfBoxFrame P b e := by
  rw [sdfBoxFrame_eq, sdfRoundedCube_eq, sub_zero]
  refine le_min (le_min ?_ ?_) ?_
  · exact boxDist_mono _ _ _ _ _ _ le_rfl (le_fold _ _) (le_fold _ _)
  · exact boxDist_mono _ _ _ _ _ _ (le_fold _ _) le_rfl (le_fold _ _)
  · exact boxDist_mono _ _ _ _ _ _ (le_fold _ _) (le_fold _ _) le_rfl

/-! ## A ray that starts inside the geometry -/

/-- C19: a ray that starts inside the geometry is reported as an immediate hit with a
negative distance. For every origin `O` with `scene O < 0` and every direction `D`,
`raymarch O D = scene O < 0`, after one iteration (the step is added before the hit
test). -/
theorem raymarch_inside (O D : vec3) (hO : scene O < 0) :
    raymarch O D = scene O ∧ raymarch O D < 0 ∧ raymarchSamples scene O D = [0] := by
  have hS : scene (O.addition (D.scalarMul 0)) < SURFACE_DIST := by
    rw [vec3.addition_scalarMul_zero]
    unfold SURFACE_DIST
    linarith
  have hrun : raymarchRun scene O D MAX_STEPS 0 = (scene O, [0]) := by
    unfold MAX_STEPS
    rw [raymarchRun_succ, if_pos (Or.inr hS), vec3.addition_scalarMul_zero, zero_add]
  unfold raymarch raymarchWith raymarchSamples
  rw [hrun]
  exact ⟨rfl, hO, rfl⟩

theorem sdfBoxFrame_inside_bar (e : ℝ) (he0 : 1 / 10 ≤ e) (he1 : e ≤ 1 / 2) :
    sdfBoxFrame ⟨0, 0.9, 0.9⟩ ⟨1, 1, 1⟩ e = -(1 / 10) := by
  rw [sdfBoxFrame_eq]
  simp only
  have e0 : |(|(0 : ℝ)| - 1 + e)| - e = 1 - 2 * e := by
    rw [abs_zero, abs_of_nonpos (by linarith)]
    ring
  have p0 : |(0 : ℝ)| - 1 = -1 := by norm_num
  have p9 : |(0.9 : ℝ)| - 1 = -(1 / 10) := by norm_num [abs_of_pos]
  have e9 : |(-(1 / 10) + e)| - e = -(1 / 10) := by
    rw [abs_of_nonneg (by linarith)]
    ring
  rw [e0, p0, p9, e9]
  have d1 : boxDist (-1) (-(1 / 10)) (-(1 / 10)) = -(1 / 10) := by
    have h : max (-1 : ℝ) (max (-(1 / 10)) (-(1 / 10))) < 0 := by norm_num
    rw [boxDist_of_neg h]
    norm_num
  have d2 := boxDist_ge_x (1 - 2 * e) (-(1 / 10)) (-(1 / 10))
  rw [d1]
  have d3 : -(1 / 10 : ℝ) ≤ boxDist (1 - 2 * e) (-(1 / 10)) (-(1 / 10)) := by linarith
  rw [min_eq_left d3, min_eq_left d3]

theorem scene_inside_bar : scene ⟨0, 0.9, 0.9⟩ = -(1 / 10) :=
  sdfBoxFrame_inside_bar (13421773 / 134217728) (by norm_num) (by norm_num)

theorem raymarch_inside_witness :
    scene ⟨0, 0.9, 0.9⟩ < 0 ∧
    raymarch ⟨0, 0.9, 0.9⟩ ⟨0, 0, -1⟩ = scene ⟨0, 0.9, 0.9⟩ ∧
    raymarch ⟨0, 0.9, 0.9⟩ ⟨0, 0, -1⟩ < 0 ∧
    raymarchSamples scene ⟨0, 0.9, 0.9⟩ ⟨0, 0, -1⟩ = [0] :=
  have h : scene ⟨0, 0.9, 0.9⟩ < 0 := by
    rw [scene_inside_bar]
    norm_num
  ⟨h, raymarch_inside ⟨0, 0.9, 0.9⟩ ⟨0, 0, -1⟩ h⟩

/-! ## The rounding radius inflates the cube -/

theorem length_zaxis (a : ℝ) (ha : 0 ≤ a) : (vec3.mk 0 0 a).length = a := by
  unfold vec3.length
  simp only [mul_zero, zero_add]
  exact Real.sqrt_mul_self ha

/-- Near the top face `z = 1` of a bar that runs along the x-axis the frame field is the
height over the face. -/
theorem sdfBoxFrame_top_face (x y z e : ℝ) (hx : |x| ≤ 3 / 4) (hy1 : 41 / 50 ≤ |y|)
    (hy2 : |y| ≤ 49 / 50) (hz : |z - 1| ≤ 1 / 100) (he0 : 1 / 10 ≤ e) (he1 : e ≤ 11 / 100) :
    sdfBoxFrame ⟨x, y, z⟩ ⟨1, 1, 1⟩ e = z - 1 := by
  obtain ⟨hz1, hz2⟩ := abs_le.mp hz
  have hzpos : |z| = z := abs_of_nonneg (by linarith)
  rw [sdfBoxFrame_eq]
  simp only
  rw [hzpos]
  have qz : |(z - 1 + e)| - e = z - 1 := by
    rw [abs_of_nonneg (by linarith)]
    ring
  have qx : |(|x| - 1 + e)| - e = 1 - 2 * e - |x| := by
    rw [abs_of_nonpos (by linarith)]
    ring
  have qy : |(|y| - 1 + e)| - e ≤ -(1 / 50) := by
    have : |(|y| - 1 + e)| ≤ e - 1 / 50 := by
      apply abs_le.mpr
      constructor <;> linarith
    linarith
  rw [qz, qx]
  have d1 : boxDist (|x| - 1) (|(|y| - 1 + e)| - e) (z - 1) = z - 1 :=
    boxDist_eq_z _ _ _ (by linarith) (by linarith) (by linarith) (by linarith)
  have d2 := boxDist_ge_x (1 - 2 * e - |x|) (|y| - 1) (z - 1)
  have d3 := boxDist_ge_x (1 - 2 * e - |x|) (|(|y| - 1 + e)| - e) (z - 1)
  have e2 : z - 1 ≤ boxDist (1 - 2 * e - |x|) (|y| - 1) (z - 1) := by linarith
  have e3 : z - 1 ≤ boxDist (1 - 2 * e - |x|) (|(|y| - 1 + e)| - e) (z - 1) := by linarith
  rw [d1, min_eq_left e2, min_eq_left e3]

/-- Near the top face `z = 1` of a bar that runs along the x-axis the live field is the
height over the face. -/
theorem scene_top_face (x y z : ℝ) (hx : |x| ≤ 3 / 4) (hy1 : 41 / 50 ≤ |y|)
    (hy2 : |y| ≤ 49 / 50) (hz : |z - 1| ≤ 1 / 100) : scene ⟨x, y, z⟩ = z - 1 :=
  sdfBoxFrame_top_face x y z (13421773 / 134217728) hx hy1 hy2 hz (by norm_num) (by norm_num)

/-- C12: on a flat outer face of the live box frame the estimator returns the exact unit
outward normal. For every surface point `P = (x, y, 1)` with `|x| ≤ 0.7` and
`0.85 ≤ |y| ≤ 0.95` (top face of a bar running along x), `getSurfaceNormal P` is
`(0, 0, 1)`. -/
theorem getSurfaceNormal_top_face (x y : ℝ) (hx : |x| ≤ 0.7) (hy1 : 0.85 ≤ |y|)
    (hy2 : |y| ≤ 0.95) : getSurfaceNormal ⟨x, y, 1⟩ = ⟨0, 0, 1⟩ := by
  have he0 : (0 : ℝ) < 13743895 / 137438953472 := by norm_num
  have he1 : (13743895 / 137438953472 : ℝ) ≤ 1 / 10000 := by norm_num
  unfold getSurfaceNormal getSurfaceNormalWith
  simp only [vec3.addition, vec3.scalarMul]
  generalize (13743895 / 137438953472 : ℝ) = eps at he0 he1 ⊢
  have hxp : |x + 1 * eps| ≤ 3 / 4 := by
    refine le_trans (abs_add _ _) ?_
    rw [abs_of_pos (by linarith : 0 < 1 * eps)]
    norm_num at hx ⊢
    linarith
  have hxm : |x + -1 * eps| ≤ 3 / 4 := by
    refine le_trans (abs_add _ _) ?_
    rw [abs_of_neg (by linarith : -1 * eps < 0)]
    norm_num at hx ⊢
    linarith
  have hyp1 : 41 / 50 ≤ |y + 1 * eps| := by
    have := abs_sub_abs_le_abs_sub y (-(1 * eps))
    rw [sub_neg_eq_add, abs_neg, abs_of_pos (by linarith : 0 < 1 * eps)] at this
    norm_num at hy1 this ⊢
    linarith
  have hyp2 : |y + 1 * eps| ≤ 49 / 50 := by
    refine le_trans (abs_add _ _) ?_
    rw [abs_of_pos (by linarith : 0 < 1 * eps)]
    norm_num at hy2 ⊢
    linarith
  have hym1 : 41 / 50 ≤ |y + -1 * eps| := by
    have := abs_sub_abs_le_abs_sub y (-(-1 * eps))
    rw [sub_neg_eq_add, abs_neg, abs_of_neg (by linarith : -1 * eps < 0)] at this
    norm_num at hy1 this ⊢
    linarith
  have hym2 : |y + -1 * eps| ≤ 49 / 50 := by
    refine le_trans (abs_add _ _) ?_
    rw [abs_of_neg (by linarith : -1 * eps < 0)]
    norm_num at hy2 ⊢
    linarith
  have hzp : |(1 : ℝ) + 1 * eps - 1| ≤ 1 / 100 := by
    rw [abs_of_pos (by linarith)]
    linarith
  have hzm : |(1 : ℝ) + -1 * eps - 1| ≤ 1 / 100 := by
    rw [abs_of_neg (by linarith)]
    linarith
  rw [scene_top_face _ _ _ hxp hym1 hym2 hzm, scene_top_face _ _ _ hxm hym1 hym2 hzp,
    scene_top_face _ _ _ hxm hyp1 hyp2 hzm, scene_top_face _ _ _ hxp hyp1 hyp2 hzp]
  have hv : (vec3.mk
      (1 * ((1 : ℝ) + -1 * eps - 1) + -1 * (1 + 1 * eps - 1) +
        -1 * (1 + -1 * eps - 1) + 1 * (1 + 1 * eps - 1))
      (-1 * ((1 : ℝ) + -1 * eps - 1) + -1 * (1 + 1 * eps - 1) +
        1 * (1 + -1 * eps - 1) + 1 * (1 + 1 * eps - 1))
      (-1 * ((1 : ℝ) + -1 * eps - 1) + 1 * (1 + 1 * eps - 1) +
        -1 * (1 + -1 * eps - 1) + 1 * (1 + 1 * eps - 1))) = ⟨0, 0, 4 * eps⟩ := by
    congr 1 <;> ring
  rw [hv]
  unfold vec3.normalise
  rw [length_zaxis _ (by linarith)]
  have h4 : 4 * eps ≠ 0 := by linarith
  simp only [zero_div, div_self h4]

theorem getSurfaceNormal_top_face_witness :
    getSurfaceNormal ⟨1 / 2, -9 / 10, 1⟩ = ⟨0, 0, 1⟩ :=
  getSurfaceNormal_top_face (1 / 2) (-9 / 10)
    (by rw [abs_of_pos] <;> norm_num) (by rw [abs_of_neg] <;> norm_num)
    (by rw [abs_of_neg] <;> norm_num)


/-! ## Sphere, torus and rounded cube are 1-Lipschitz -/

theorem vec3.length_subtraction_comm (u v : vec3) :
    (u.subtraction v).length = (v.subtraction u).length := by
  unfold vec3.length
  simp only [vec3.subtraction]
  congr 1
  ring

theorem vec3.abs_length_sub_length_le (u v : vec3) :
    |u.length - v.length| ≤ (u.subtraction v).length := by
  apply abs_le.mpr
  constructor
  · have := vec3.length_sub_length_le v u
    rw [vec3.length_subtraction_comm v u] at this
    linarith
  · exact vec3.length_sub_length_le u v

theorem vec2.length_eq_vec3 (a b : ℝ) : (vec2.mk a b).length = (vec3.mk a b 0).length := by
  unfold vec2.length vec3.length
  simp only [mul_zero, add_zero]

theorem vec2.abs_length_sub_le_sqrt (a b c d : ℝ) :
    |(vec2.mk a b).length - (vec2.mk c d).length| ≤
      Real.sqrt ((a - c) ^ 2 + (b - d) ^ 2) := by
  rw [vec2.length_eq_vec3, vec2.length_eq_vec3]
  refine le_trans (vec3.abs_length_sub_length_le _ _) (le_of_eq ?_)
  unfold vec3.length
  simp only [vec3.subtraction]
  congr 1
  ring

theorem sq_le_of_abs_le_sqrt {u w : ℝ} (hw : 0 ≤ w) (h : |u| ≤ Real.sqrt w) : u ^ 2 ≤ w := by
  have h1 : |u| ≤ |Real.sqrt w| := by rwa [abs_of_nonneg (Real.sqrt_nonneg w)]
  have h2 := sq_le_sq.mpr h1
  rwa [Real.sq_sqrt hw] at h2

/-- The expression that `sdfTorus` evaluates at the rotated point `(x, a, b)` is
1-Lipschitz in that point. -/
theorem torus_core_lipschitz (x1 a1 b1 x2 a2 b2 R : ℝ) :
    |(vec2.mk ((vec2.mk x1 b1).length - R) a1).length -
      (vec2.mk ((vec2.mk x2 b2).length - R) a2).length| ≤
      Real.sqrt ((x1 - x2) ^ 2 + (a1 - a2) ^ 2 + (b1 - b2) ^ 2) := by
  refine le_trans (vec2.abs_length_sub_le_sqrt _ _ _ _) ?_
  apply Real.sqrt_le_sqrt
  have h1 := sq_le_of_abs_le_sqrt (by positivity)
    (vec2.abs_length_sub_le_sqrt x1 b1 x2 b2)
  nlinarith

/-- The torus field for an arbitrary pre-rotation `(c, s)` with `c² + s² = 1` is
1-Lipschitz. -/
theorem torus_lipschitz_aux (P Q : vec3) (R c s : ℝ) (hcs : c ^ 2 + s ^ 2 = 1) :
    |(vec2.mk ((vec2.mk P.x (P.y * s + P.z * c)).length - R) (P.y * c - P.z * s)).length -
      (vec2.mk ((vec2.mk Q.x (Q.y * s + Q.z * c)).length - R) (Q.y * c - Q.z * s)).length| ≤
      (P.subtraction Q).length := by
  refine le_trans (torus_core_lipschitz _ _ _ _ _ _ _) ?_
  unfold vec3.length
  apply Real.sqrt_le_sqrt
  simp only [vec3.subtraction]
  have e : (P.x - Q.x) ^ 2 + (P.y * c - P.z * s - (Q.y * c - Q.z * s)) ^ 2 +
      (P.y * s + P.z * c - (Q.y * s + Q.z * c)) ^ 2 =
      (P.x - Q.x) ^ 2 + (c ^ 2 + s ^ 2) * ((P.y - Q.y) ^ 2 + (P.z - Q.z) ^ 2) := by ring
  rw [hcs, one_mul] at e
  nlinarith

/-- C14 (amended): over exact real arithmetic, the non-fractal primitives other than the
box frame are 1-Lipschitz. For all
points `P`, `Q` and all shape parameters, `|f P - f Q| ≤ |P - Q|` for `f = sdfSphere · r`,
`f = sdfTorus · t` and `f = sdfRoundedCube · b e`. -/
theorem sdf_primitives_one_lipschitz (P Q : vec3) (r : ℝ) (t : vec2) (b : vec3) (e : ℝ) :
    |sdfSphere P r - sdfSphere Q r| ≤ (P.subtraction Q).length ∧
    |sdfTorus P t - sdfTorus Q t| ≤ (P.subtraction Q).length ∧
    |sdfRoundedCube P b e - sdfRoundedCube Q b e| ≤ (P.subtraction Q).length := by
  refine ⟨?_, ?_, ?_⟩
  · unfold sdfSphere
    rw [sub_sub_sub_cancel_right]
    exact vec3.abs_length_sub_length_le P Q
  · unfold sdfTorus
    simp only
    rw [sub_sub_sub_cancel_right]
    exact torus_lipschitz_aux P Q t.x (Real.cos (PI * 0.5)) (Real.sin (PI * 0.5))
      (Real.cos_sq_add_sin_sq _)
  · rw [sdfRoundedCube_eq, sdfRoundedCube_eq, sub_sub_sub_cancel_right]
    exact boxDist_lipschitz_of_sq_le P Q _ _ _ _ _ _ (sq_mirror_sub_le _ _ _)
      (sq_mirror_sub_le _ _ _) (sq_mirror_sub_le _ _ _)


/-! ## Torus: the pre-rotation is by the angle `PI * 0.5`, not by a right angle -/

/-- The angle of the pre-rotation is above a right angle, by less than `4.4e-8`. -/
theorem torus_angle_bounds :
    Real.pi / 2 < PI * 0.5 ∧ PI * 0.5 - Real.pi / 2 < 44 / 1000000000 ∧
      PI * 0.5 < Real.pi := by
  have h1 := Real.pi_gt_d20
  have h2 := Real.pi_lt_d20
  unfold PI
  refine ⟨?_, ?_, ?_⟩ <;> norm_num at h1 h2 ⊢ <;> linarith

theorem torus_cos_neg : Real.cos (PI * 0.5) < 0 := by
  obtain ⟨h0, -, h1⟩ := torus_angle_bounds
  exact Real.cos_neg_of_pi_div_two_lt_of_lt h0 (by linarith [Real.pi_pos])

/-- The rotation misses the right angle by `2 - 2 sin (PI * 0.5) ≤ (4.4e-8)²` in the
squared chord. -/
theorem torus_chord_le : 2 - 2 * Real.sin (PI * 0.5) ≤ (44 / 1000000000) ^ 2 := by
  obtain ⟨h0, h1, -⟩ := torus_angle_bounds
  have e : Real.sin (PI * 0.5) = Real.cos (PI * 0.5 - Real.pi / 2) := by
    rw [Real.cos_sub_pi_div_two]
  have h3 := @Real.one_sub_sq_div_two_le_cos (PI * 0.5 - Real.pi / 2)
  rw [← e] at h3
  have h4 : (PI * 0.5 - Real.pi / 2) ^ 2 ≤ (44 / 1000000000) ^ 2 :=
    pow_le_pow_left₀ (by linarith) h1.le 2
  linarith

/-- C15 (as stated, refuted): at `P = (0, 1, 0)` and `t = (1, 0)` the formula of the
z-axis torus gives `sqrt ((sqrt (0² + 1²) - 1)² + 0²) - 0 = 0`, and `sdfTorus` gives a
positive value: after the rotation by `PI * 0.5` the point has the second coordinate
`cos (PI * 0.5) < 0`, where a right angle would leave `0`. -/
theorem sdfTorus_ne_zaxis_torus :
    Real.sqrt ((Real.sqrt ((0 : ℝ) ^ 2 + 1 ^ 2) - 1) ^ 2 + 0 ^ 2) - 0 = 0 ∧
    0 < sdfTorus ⟨0, 1, 0⟩ ⟨1, 0⟩ ∧
    sdfTorus ⟨0, 1, 0⟩ ⟨1, 0⟩ ≠
      Real.sqrt ((Real.sqrt ((0 : ℝ) ^ 2 + 1 ^ 2) - 1) ^ 2 + 0 ^ 2) - 0 := by
  have hf : Real.sqrt ((Real.sqrt ((0 : ℝ) ^ 2 + 1 ^ 2) - 1) ^ 2 + 0 ^ 2) - 0 = 0 := by
    norm_num
  have hc := torus_cos_neg
  have hpos : 0 < sdfTorus ⟨0, 1, 0⟩ ⟨1, 0⟩ := by
    unfold sdfTorus
    simp only [sub_zero]
    unfold vec2.length
    apply Real.sqrt_pos.mpr
    simp only
    nlinarith [mul_self_nonneg (Real.sqrt (0 * 0 + (1 * Real.sin (PI * 0.5) +
      0 * Real.cos (PI * 0.5)) * (1 * Real.sin (PI * 0.5) + 0 * Real.cos (PI * 0.5))) - 1),
      mul_pos_of_neg_of_neg hc hc]
  refine ⟨hf, hpos, ?_⟩
  rw [hf]
  exact ne_of_gt hpos

/-- C15 (amended): over exact real arithmetic, `sdfTorus` rotates the query point about
the x-axis by the angle `PI * 0.5` of the constant `PI = 3.14159265f`, which is above the
right angle `π / 2` by less than `4.4e-8`. For every `P = (x, y, z)` and `t = (R, r)` the
value `sdfTorus P t` differs from `sqrt ((sqrt (x² + y²) - R)² + z²) - r`, the field of
the torus around the z-axis, by at most `4.4e-8 * sqrt (y² + z²)`. -/
theorem sdfTorus_near_zaxis_torus (P : vec3) (t : vec2) :
    Real.pi / 2 < PI * 0.5 ∧ PI * 0.5 - Real.pi / 2 < 44 / 1000000000 ∧
    |sdfTorus P t -
      (Real.sqrt ((Real.sqrt (P.x ^ 2 + P.y ^ 2) - t.x) ^ 2 + P.z ^ 2) - t.y)| ≤
      44 / 1000000000 * Real.sqrt (P.y ^ 2 + P.z ^ 2) := by
  obtain ⟨h1, h2, -⟩ := torus_angle_bounds
  refine ⟨h1, h2, ?_⟩
  have hform : Real.sqrt ((Real.sqrt (P.x ^ 2 + P.y ^ 2) - t.x) ^ 2 + P.z ^ 2) =
      (vec2.mk ((vec2.mk P.x P.y).length - t.x) (-P.z)).length := by
    unfold vec2.length
    simp only
    congr 1
    have : P.x ^ 2 + P.y ^ 2 = P.x * P.x + P.y * P.y := by ring
    rw [this]
    ring
  rw [hform]
  unfold sdfTorus
  simp only
  rw [sub_sub_sub_cancel_right]
  refine le_trans (torus_core_lipschitz _ _ _ _ _ _ _) ?_
  have hcs := Real.cos_sq_add_sin_sq (PI * 0.5)
  have hch := torus_chord_le
  have e : (P.x - P.x) ^ 2 + (P.y * Real.cos (PI * 0.5) - P.z * Real.sin (PI * 0.5) - -P.z) ^ 2 +
      (P.y * Real.sin (PI * 0.5) + P.z * Real.cos (PI * 0.5) - P.y) ^ 2 =
      (Real.cos (PI * 0.5) ^ 2 + Real.sin (PI * 0.5) ^ 2 + 1 - 2 * Real.sin (PI * 0.5)) *
        (P.y ^ 2 + P.z ^ 2) := by ring
  rw [e, hcs]
  have hyz : 0 ≤ P.y ^ 2 + P.z ^ 2 := by positivity
  have hle : (1 + 1 - 2 * Real.sin (PI * 0.5)) * (P.y ^ 2 + P.z ^ 2) ≤
      (44 / 1000000000) ^ 2 * (P.y ^ 2 + P.z ^ 2) :=
    mul_le_mul_of_nonneg_right (by linarith) hyz
  refine le_trans (Real.sqrt_le_sqrt hle) ?_
  rw [Real.sqrt_mul (by positivity), Real.sqrt_sq (by norm_num)]


/-! ## The normal of the unit sphere -/

theorem vec3.normalise_length (v : vec3) (hv : 0 < v.length) : v.normalise.length = 1 := by
  have hs : v.normalise = v.scalarMul (1 / v.length) := by
    unfold vec3.normalise vec3.scalarMul
    simp only [mul_one_div]
  rw [hs, vec3.length_scalarMul, abs_of_pos (one_div_pos.mpr hv)]
  exact one_div_mul_cancel (ne_of_gt hv)

/-- Cauchy-Schwarz for `dot`. -/
theorem dot_le_length_mul_length (u v : vec3) : dot u v ≤ u.length * v.length := by
  have hu := u.length_sq
  have hv := v.length_sq
  have h0 : 0 ≤ u.length * v.length := mul_nonneg u.length_nonneg v.length_nonneg
  have hsq : (dot u v) ^ 2 ≤ (u.length * v.length) ^ 2 := by
    rw [mul_pow, hu, hv]
    unfold dot
    nlinarith [sq_nonneg (u.x * v.y - u.y * v.x), sq_nonneg (u.x * v.z - u.z * v.x),
      sq_nonneg (u.y * v.z - u.z * v.y)]
  exact le_trans (le_abs_self _) (abs_le_of_sq_le_sq hsq h0)

theorem neg_length_le_dot (u v : vec3) : -(u.length * v.length) ≤ dot u v := by
  have h := dot_le_length_mul_length (u.scalarMul (-1)) v
  rw [vec3.length_scalarMul] at h
  simp only [abs_neg, abs_one, one_mul] at h
  have e : dot (u.scalarMul (-1)) v = -dot u v := by
    unfold dot vec3.scalarMul
    ring
  rw [e] at h
  linarith

/-- One tap of the estimator on the unit sphere: the field at the point `P + eps * h`,
for a corner `h = (a, b, c)` of the cube, is `eps * (h · P)` up to `2 eps²`. -/
theorem sphere_tap (x y z a b c eps : ℝ) (hP : x * x + y * y + z * z = 1) (ha : a * a = 1)
    (hb : b * b = 1) (hc : c * c = 1) (he0 : 0 < eps) (he1 : eps ≤ 1 / 1000) :
    |sceneSphere ⟨x + a * eps, y + b * eps, z + c * eps⟩ -
      eps * (a * x + b * y + c * z)| ≤ 2 * eps ^ 2 := by
  have hs2 : (a * x + b * y + c * z) ^ 2 ≤ 3 := by
    nlinarith [sq_nonneg (a * y - b * x), sq_nonneg (a * z - c * x), sq_nonneg (b * z - c * y)]
  have hs : |a * x + b * y + c * z| ≤ 2 := by
    apply abs_le_of_sq_le_sq _ (by norm_num)
    linarith
  obtain ⟨hlo, hhi⟩ := abs_le.mp hs
  have hA : (x + a * eps) * (x + a * eps) + (y + b * eps) * (y + b * eps) +
      (z + c * eps) * (z + c * eps) =
      1 + 2 * eps * (a * x + b * y + c * z) + 3 * eps ^ 2 := by
    have : (x + a * eps) * (x + a * eps) + (y + b * eps) * (y + b * eps) +
      (z + c * eps) * (z + c * eps) = (x * x + y * y + z * z) +
        2 * eps * (a * x + b * y + c * z) + (a * a + b * b + c * c) * eps ^ 2 := by ring
    rw [this, hP, ha, hb, hc]
    ring
  unfold sceneSphere sdfSphere vec3.length
  simp only
  rw [hA]
  generalize a * x + b * y + c * z = s at hs2 hlo hhi ⊢
  have hes : -(1 / 500) ≤ eps * s := by nlinarith
  have hes2 : eps * s ≤ 1 / 500 := by nlinarith
  have he2 : eps ^ 2 ≤ 1 / 1000000 := by nlinarith
  have he2' : 0 ≤ eps ^ 2 := sq_nonneg eps
  apply abs_le.mpr
  constructor
  · have : 1 + eps * s - 2 * eps ^ 2 ≤ Real.sqrt (1 + 2 * eps * s + 3 * eps ^ 2) := by
      apply Real.le_sqrt_of_sq_le
      have key : 0 ≤ eps ^ 2 * (7 - s ^ 2 - 4 * eps ^ 2 + 4 * (eps * s)) :=
        mul_nonneg he2' (by linarith)
      nlinarith
    linarith
  · have : Real.sqrt (1 + 2 * eps * s + 3 * eps ^ 2) ≤ 1 + eps * s + 2 * eps ^ 2 := by
      apply Real.sqrt_le_iff.mpr
      constructor
      · linarith
      · have key : 0 ≤ eps ^ 2 * (s ^ 2 + 4 * eps ^ 2 + 1 + 4 * (eps * s)) :=
          mul_nonneg he2' (by nlinarith [sq_nonneg s])
        nlinarith
    linarith

theorem cos_five_hundredths_lt : Real.cos 0.05 < 99876 / 100000 := by
  have h := @Real.cos_bound 0.05 (by rw [abs_of_pos] <;> norm_num)
  have h2 := (abs_le.mp h).2
  rw [abs_of_pos (by norm_num : (0 : ℝ) < 0.05)] at h2
  norm_num at h2 ⊢
  linarith

/-- The normalised sum of the four taps, each within `2 eps²` of its linear part, is a
unit vector within `0.05` rad of the point of the unit sphere. -/
theorem normal_of_taps (x y z f1 f2 f3 f4 eps : ℝ) (hP : x * x + y * y + z * z = 1)
    (he0 : 0 < eps) (he1 : eps ≤ 1 / 10000)
    (t1 : |f1 - eps * (1 * x + -1 * y + -1 * z)| ≤ 2 * eps ^ 2)
    (t2 : |f2 - eps * (-1 * x + -1 * y + 1 * z)| ≤ 2 * eps ^ 2)
    (t3 : |f3 - eps * (-1 * x + 1 * y + -1 * z)| ≤ 2 * eps ^ 2)
    (t4 : |f4 - eps * (1 * x + 1 * y + 1 * z)| ≤ 2 * eps ^ 2) :
    (vec3.mk (1 * f1 + -1 * f2 + -1 * f3 + 1 * f4) (-1 * f1 + -1 * f2 + 1 * f3 + 1 * f4)
      (-1 * f1 + 1 * f2 + -1 * f3 + 1 * f4)).normalise.length = 1 ∧
    Real.cos 0.05 < dot (vec3.mk (1 * f1 + -1 * f2 + -1 * f3 + 1 * f4)
      (-1 * f1 + -1 * f2 + 1 * f3 + 1 * f4)
      (-1 * f1 + 1 * f2 + -1 * f3 + 1 * f4)).normalise ⟨x, y, z⟩ := by
  obtain ⟨l1, u1⟩ := abs_le.mp t1
  obtain ⟨l2, u2⟩ := abs_le.mp t2
  obtain ⟨l3, u3⟩ := abs_le.mp t3
  obtain ⟨l4, u4⟩ := abs_le.mp t4
  have hee : eps ^ 2 ≤ 1 / 10000 * eps := by nlinarith
  have hPl : (vec3.mk x y z).length = 1 := by
    unfold vec3.length
    simp only
    rw [hP, Real.sqrt_one]
  -- the deviation of the sum from `4 eps P`
  have hW := vec3.length_le_max_abs
    (vec3.mk (1 * f1 + -1 * f2 + -1 * f3 + 1 * f4 - 4 * eps * x)
      (-1 * f1 + -1 * f2 + 1 * f3 + 1 * f4 - 4 * eps * y)
      (-1 * f1 + 1 * f2 + -1 * f3 + 1 * f4 - 4 * eps * z)) (8 * eps ^ 2)
    (abs_le.mpr ⟨by simp only; linarith, by simp only; linarith⟩)
    (abs_le.mpr ⟨by simp only; linarith, by simp only; linarith⟩)
    (abs_le.mpr ⟨by simp only; linarith, by simp only; linarith⟩)
  generalize hWd : (vec3.mk (1 * f1 + -1 * f2 + -1 * f3 + 1 * f4 - 4 * eps * x)
      (-1 * f1 + -1 * f2 + 1 * f3 + 1 * f4 - 4 * eps * y)
      (-1 * f1 + 1 * f2 + -1 * f3 + 1 * f4 - 4 * eps * z)) = W at hW
  have hV : (vec3.mk (1 * f1 + -1 * f2 + -1 * f3 + 1 * f4)
      (-1 * f1 + -1 * f2 + 1 * f3 + 1 * f4) (-1 * f1 + 1 * f2 + -1 * f3 + 1 * f4)) =
      ((vec3.mk x y z).scalarMul (4 * eps)).addition W := by
    rw [← hWd]
    simp only [vec3.scalarMul, vec3.addition]
    congr 1 <;> ring
  generalize (vec3.mk (1 * f1 + -1 * f2 + -1 * f3 + 1 * f4)
      (-1 * f1 + -1 * f2 + 1 * f3 + 1 * f4) (-1 * f1 + 1 * f2 + -1 * f3 + 1 * f4)) = V at hV ⊢
  have hVle : V.length ≤ 4 * eps + W.length := by
    rw [hV]
    refine le_trans (vec3.length_addition_le _ _) ?_
    rw [vec3.length_scalarMul, hPl, abs_of_pos (by linarith)]
    linarith
  have hdot : dot V ⟨x, y, z⟩ = 4 * eps + dot W ⟨x, y, z⟩ := by
    rw [hV]
    unfold dot
    simp only [vec3.scalarMul, vec3.addition]
    linear_combination (4 * eps) * hP
  have hWP := neg_length_le_dot W ⟨x, y, z⟩
  rw [hPl, mul_one] at hWP
  have hVP := dot_le_length_mul_length V ⟨x, y, z⟩
  rw [hPl, mul_one] at hVP
  have hLpos : 0 < V.length := by linarith
  refine ⟨vec3.normalise_length V hLpos, ?_⟩
  have hN : dot V.normalise ⟨x, y, z⟩ = dot V ⟨x, y, z⟩ / V.length := by
    unfold dot vec3.normalise
    simp only
    field_simp
  rw [hN, lt_div_iff₀ hLpos]
  have hc := cos_five_hundredths_lt
  have h1 : Real.cos 0.05 * V.length ≤ 99876 / 100000 * V.length :=
    mul_le_mul_of_nonneg_right hc.le hLpos.le
  linarith

/-- C13: with the unit sphere as the scene, for every point `P` with `|P| = 1` the
tetrahedral estimator returns a unit vector `N` whose angle to `P` is below `0.05` rad:
`dot N P ≥ cos 0.05` (indeed `>`). -/
theorem getSurfaceNormal_sphere (P : vec3) (hP : P.length = 1) :
    (getSurfaceNormalWith sceneSphere P).length = 1 ∧
    Real.cos 0.05 ≤ dot (getSurfaceNormalWith sceneSphere P) P ∧
    Real.cos 0.05 < dot (getSurfaceNormalWith sceneSphere P) P := by
  obtain ⟨x, y, z⟩ := P
  have hP2 : x * x + y * y + z * z = 1 := by
    have := (vec3.mk x y z).length_sq
    rw [hP] at this
    simp only at this
    linarith
  have he0 : (0 : ℝ) < 13743895 / 137438953472 := by norm_num
  have he1 : (13743895 / 137438953472 : ℝ) ≤ 1 / 10000 := by norm_num
  unfold getSurfaceNormalWith
  simp only [vec3.addition, vec3.scalarMul]
  generalize (13743895 / 137438953472 : ℝ) = eps at he0 he1 ⊢
  have he2 : eps ≤ 1 / 1000 := by linarith
  have t1 := sphere_tap x y z 1 (-1) (-1) eps hP2 (by norm_num) (by norm_num) (by norm_num)
    he0 he2
  have t2 := sphere_tap x y z (-1) (-1) 1 eps hP2 (by norm_num) (by norm_num) (by norm_num)
    he0 he2
  have t3 := sphere_tap x y z (-1) 1 (-1) eps hP2 (by norm_num) (by norm_num) (by norm_num)
    he0 he2
  have t4 := sphere_tap x y z 1 1 1 eps hP2 (by norm_num) (by norm_num) (by norm_num)
    he0 he2
  have h := normal_of_taps x y z _ _ _ _ eps hP2 he0 he1 t1 t2 t3 t4
  exact ⟨h.1, h.2.le, h.2⟩

theorem getSurfaceNormal_sphere_witness :
    (vec3.mk 0 0 1).length = 1 ∧
    (getSurfaceNormalWith sceneSphere ⟨0, 0, 1⟩).length = 1 ∧
    Real.cos 0.05 ≤ dot (getSurfaceNormalWith sceneSphere ⟨0, 0, 1⟩) ⟨0, 0, 1⟩ ∧
    Real.cos 0.05 < dot (getSurfaceNormalWith sceneSphere ⟨0, 0, 1⟩) ⟨0, 0, 1⟩ :=
  have h : (vec3.mk 0 0 1).length = 1 := by simp [vec3.length]
  ⟨h, getSurfaceNormal_sphere ⟨0, 0, 1⟩ h⟩


/-! ## Binary32: where rounding breaks the statements that hold over the reals -/

/-- C4 (as stated, refuted): in the `float` arithmetic of the source the march from
`O = (0, 0.9f, 8.95f)` along the unit direction `D = (0, 0, -1)` starts at a point with
`scene O = 7.9500003 ≥ 0`, takes the samples `0` and `7.9500003`, and at the second sample
point the scene value is `-2^(-21) = -4.77e-7 < 0`: the first step has overshot. The
distance then falls from `7.9500003` to the result `7.9499998`. -/
theorem raymarchF_overshoots :
    sceneF ⟨Fl.zero, Fl.lit binary32 9 10, Fl.lit binary32 895 100⟩ =
      Fl.dyadic false 16672359 (-21) ∧
    (vec3F.mk Fl.zero Fl.zero Fl.one.neg).length = Fl.one ∧
    raymarchRunF sceneF ⟨Fl.zero, Fl.lit binary32 9 10, Fl.lit binary32 895 100⟩
        ⟨Fl.zero, Fl.zero, Fl.one.neg⟩ MAX_STEPS Fl.zero =
      (Fl.dyadic false 8336179 (-20), [Fl.zero, Fl.dyadic false 16672359 (-21)]) ∧
    sceneF ((vec3F.mk Fl.zero (Fl.lit binary32 9 10) (Fl.lit binary32 895 100)).addition
        ((vec3F.mk Fl.zero Fl.zero Fl.one.neg).scalarMul (Fl.dyadic false 16672359 (-21)))) =
      Fl.dyadic true 1 (-21) ∧
    Fl.lt (Fl.dyadic true 1 (-21)) Fl.zero = true ∧
    Fl.lt (Fl.dyadic false 8336179 (-20)) (Fl.dyadic false 16672359 (-21)) = true := by
  decide!

/-- C8 (as stated, refuted): in the `float` arithmetic of the source, with the unit sphere
as the scene, the march from `O = (1e8, 0, 0)` along `D = -O / |O| = (-1, -0, -0)` returns
`1e8`: the first sample `|O| - 1` rounds to `1e8`. The result is `1` away from
`|O| - 1 = 99999999`, not within `0.01`. -/
theorem raymarchF_sphere_far :
    ((vec3F.mk (Fl.lit binary32 100000000 1) Fl.zero Fl.zero).normalise).scalarMul Fl.one.neg =
      ⟨Fl.one.neg, Fl.zero.neg, Fl.zero.neg⟩ ∧
    (raymarchRunF sceneSphereF ⟨Fl.lit binary32 100000000 1, Fl.zero, Fl.zero⟩
      ⟨Fl.one.neg, Fl.zero.neg, Fl.zero.neg⟩ MAX_STEPS Fl.zero).1 =
      Fl.dyadic false 100000000 0 ∧
    (Fl.dyadic false 100000000 0).toReal = 100000000 ∧
    (vec3F.mk (Fl.lit binary32 100000000 1) Fl.zero Fl.zero).toReal.length = 100000000 ∧
    ¬ |(Fl.dyadic false 100000000 0).toReal -
        ((vec3F.mk (Fl.lit binary32 100000000 1) Fl.zero Fl.zero).toReal.length - 1)| ≤ 0.01 := by
  have hO : Fl.lit binary32 100000000 1 = Fl.dyadic false 100000000 0 := by decide!
  have hr : (Fl.dyadic false 100000000 0).toReal = 100000000 := by
    rw [Fl.toReal_dyadic _ _ _ (by norm_num)]
    norm_num
  have hz : Fl.zero.toReal = 0 := by
    unfold Fl.zero Fl.toReal
    norm_num
  have hl : (vec3F.mk (Fl.lit binary32 100000000 1) Fl.zero Fl.zero).toReal.length =
      100000000 := by
    unfold vec3F.toReal
    simp only
    rw [hO, hr, hz]
    exact length_xaxis _ (by norm_num)
  refine ⟨by decide!, by decide!, hr, hl, ?_⟩
  rw [hr, hl]
  norm_num

/-- C14 (as stated, refuted): in the `float` arithmetic of the source, with half-extents
`(1, 1, 1)` and radius `0.1f`, `sdfRoundedCube` is `2.20000005` at `P = (0, 0, 3.3f)` and
`-0.1f` at `Q = (0, 0, 1)`. The values differ by `2.3000000492`, which is more than the
distance `|P - Q| = 3.3f - 1 = 2.2999999523`. -/
theorem sdfRoundedCubeF_not_one_lipschitz :
    sdfRoundedCubeF ⟨Fl.zero, Fl.zero, Fl.lit binary32 33 10⟩ ⟨Fl.one, Fl.one, Fl.one⟩
      (Fl.lit binary32 1 10) = Fl.dyadic false 9227469 (-22) ∧
    sdfRoundedCubeF ⟨Fl.zero, Fl.zero, Fl.one⟩ ⟨Fl.one, Fl.one, Fl.one⟩
      (Fl.lit binary32 1 10) = Fl.dyadic true 13421773 (-27) ∧
    ((vec3F.mk Fl.zero Fl.zero (Fl.lit binary32 33 10)).toReal.subtraction
      (vec3F.mk Fl.zero Fl.zero Fl.one).toReal).length = 9646899 / 4194304 ∧
    ¬ |(Fl.dyadic false 9227469 (-22)).toReal - (Fl.dyadic true 13421773 (-27)).toReal| ≤
      ((vec3F.mk Fl.zero Fl.zero (Fl.lit binary32 33 10)).toReal.subtraction
        (vec3F.mk Fl.zero Fl.zero Fl.one).toReal).length := by
  have hP : Fl.lit binary32 33 10 = Fl.dyadic false 13841203 (-22) := by decide!
  have hz : Fl.zero.toReal = 0 := by
    unfold Fl.zero Fl.toReal
    norm_num
  have h1 : Fl.one.toReal = 1 := by
    unfold Fl.one
    rw [Fl.toReal_dyadic _ _ _ (by norm_num)]
    norm_num
  have hl : ((vec3F.mk Fl.zero Fl.zero (Fl.lit binary32 33 10)).toReal.subtraction
      (vec3F.mk Fl.zero Fl.zero Fl.one).toReal).length = 9646899 / 4194304 := by
    unfold vec3F.toReal vec3.subtraction
    simp only
    rw [hP, hz, h1, Fl.toReal_dyadic _ _ _ (by norm_num), sub_self]
    have e : (if false = true then (-1 : ℝ) else 1) * ((13841203 : ℕ) : ℝ) * 2 ^ (-22 : ℤ) - 1 =
        9646899 / 4194304 := by norm_num
    rw [e]
    exact length_zaxis _ (by norm_num)
  refine ⟨by decide!, by decide!, hl, ?_⟩
  rw [hl, Fl.toReal_dyadic _ _ _ (by norm_num), Fl.toReal_dyadic _ _ _ (by norm_num)]
  norm_num
  rw [abs_of_pos (by norm_num)]
  norm_num

/-- C18 (as stated, refuted): in the `float` arithmetic of the source, at the point
`P = (0.5, 0.9f, 1.1f)` with half-extents `(1, 1, 1)` and thickness `0.1f`, the frame
field is `0x1.99999ep-4` and the field of the solid box is `0x1.9999a0p-4`: the frame
value is the smaller one. -/
theorem sdfBoxFrameF_lt_sdfRoundedCubeF :
    sdfBoxFrameF ⟨Fl.lit binary32 1 2, Fl.lit binary32 9 10, Fl.lit binary32 11 10⟩
      ⟨Fl.one, Fl.one, Fl.one⟩ (Fl.lit binary32 1 10) = Fl.dyadic false 13421775 (-27) ∧
    sdfRoundedCubeF ⟨Fl.lit binary32 1 2, Fl.lit binary32 9 10, Fl.lit binary32 11 10⟩
      ⟨Fl.one, Fl.one, Fl.one⟩ Fl.zero = Fl.dyadic false 13421776 (-27) ∧
    Fl.lt
      (sdfBoxFrameF ⟨Fl.lit binary32 1 2, Fl.lit binary32 9 10, Fl.lit binary32 11 10⟩
        ⟨Fl.one, Fl.one, Fl.one⟩ (Fl.lit binary32 1 10))
      (sdfRoundedCubeF ⟨Fl.lit binary32 1 2, Fl.lit binary32 9 10, Fl.lit binary32 11 10⟩
        ⟨Fl.one, Fl.one, Fl.one⟩ Fl.zero) = true := by
  decide!

/-- C17 (as stated, refuted): in the arithmetic of the source, for the unit vector
`u = (1, 0, 0)`, the radii `s = 1e20f < t = 2e20f` (both above `2`) and the power `8`, the
squares in `length` overflow, `r` is `+∞`, and with any mathematical library whose
`log (+∞)` is `+∞` (as the C standard requires) both estimates are `+∞`: the value at
`s * u` is not below the value at `t * u`. -/
theorem sdfMandelbulbF_overflow :
    (vec3F.mk Fl.one Fl.zero Fl.zero).length = Fl.one ∧
    Fl.lt Fl.two (Fl.lit binary32 100000000000000000000 1) = true ∧
    Fl.lt (Fl.lit binary32 100000000000000000000 1)
      (Fl.lit binary32 200000000000000000000 1) = true ∧
    ∀ m : Libm, m.logF (Fl.inf false) = Fl.inf false →
      sdfMandelbulbF m ((vec3F.mk Fl.one Fl.zero Fl.zero).scalarMul
        (Fl.lit binary32 100000000000000000000 1)) (Fl.lit binary32 8 1) = Fl.inf false ∧
      sdfMandelbulbF m ((vec3F.mk Fl.one Fl.zero Fl.zero).scalarMul
        (Fl.lit binary32 200000000000000000000 1)) (Fl.lit binary32 8 1) = Fl.inf false ∧
      Fl.lt
        (sdfMandelbulbF m ((vec3F.mk Fl.one Fl.zero Fl.zero).scalarMul
          (Fl.lit binary32 100000000000000000000 1)) (Fl.lit binary32 8 1))
        (sdfMandelbulbF m ((vec3F.mk Fl.one Fl.zero Fl.zero).scalarMul
          (Fl.lit binary32 200000000000000000000 1)) (Fl.lit binary32 8 1)) = false := by
  refine ⟨by decide!, by decide!, by decide!, ?_⟩
  intro m hm
  have hs : ((vec3F.mk Fl.one Fl.zero Fl.zero).scalarMul
      (Fl.lit binary32 100000000000000000000 1)).length = Fl.inf false := by decide!
  have ht : ((vec3F.mk Fl.one Fl.zero Fl.zero).scalarMul
      (Fl.lit binary32 200000000000000000000 1)).length = Fl.inf false := by decide!
  have hlt : Fl.lt Fl.two (Fl.inf false) = true := by decide!
  have hv : Fl.toFloat (Fl.div binary64 (Fl.mul binary64 (Fl.mul binary64
      (Fl.lit binary64 1 2) (Fl.inf false)) (Fl.inf false)) Fl.one) = Fl.inf false := by
    decide!
  have e1 : sdfMandelbulbF m ((vec3F.mk Fl.one Fl.zero Fl.zero).scalarMul
      (Fl.lit binary32 100000000000000000000 1)) (Fl.lit binary32 8 1) = Fl.inf false := by
    unfold sdfMandelbulbF
    simp only [mandelbulbLoopF, hs, hlt, if_true, hm, hv]
  have e2 : sdfMandelbulbF m ((vec3F.mk Fl.one Fl.zero Fl.zero).scalarMul
      (Fl.lit binary32 200000000000000000000 1)) (Fl.lit binary32 8 1) = Fl.inf false := by
    unfold sdfMandelbulbF
    simp only [mandelbulbLoopF, ht, hlt, if_true, hm, hv]
  refine ⟨e1, e2, ?_⟩
  rw [e1, e2]
  decide
